import Mathlib

/-!
Shallow embedding of the `lru_cache` C++ library (header-only LRU cache,
`include/lru_cache/*.h`) and proofs about its specification claims.

Machine integers: every statistics field of the cache is a C++ `size_t`.
We model `size_t` values as `Nat` kept below `2 ^ 64`, with every arithmetic
operation of the source performed explicitly modulo `2 ^ 64` (`addW`, `subW`).
The sentinel `nval = std::numeric_limits<size_t>::max()` is `2 ^ 64 - 1`.

The cache (`lru::Cache`) owns a doubly-linked buffer `buf_` (head = most
recently used) and an `unordered_map` `table_` from keys to buffer iterators.
We model `buf_` as a `List (K × V)` (head of the list = head of the LRU) and
`table_` as the `List K` of keys stored in the map (the iterator values of the
map are recoverable from the key and the buffer, and the map's key multiset is
what every operation branches on, via `table_.find`).

The optional accountant hints `key_mem_` / `value_mem_` and the build-time
constant `kItemMem` live in `Acct`.  Serialization (`serde.h`) is modelled
over `List Nat` byte streams with the little-endian 8-byte length prefixes of
`EncodeSize` / `DecodeSize`.
-/

namespace Lru

/-- Width of `size_t`: all statistics arithmetic in the source is unsigned
64-bit arithmetic. -/
def wsize : Nat := 2 ^ 64

/-- The sentinel `lru::nval = std::numeric_limits<size_t>::max()`; a cache
limit equal to `nval` means "unbounded". -/
def nval : Nat := wsize - 1

/-- Unsigned 64-bit addition (`a + b` on `size_t`). -/
def addW (a b : Nat) : Nat := (a + b) % wsize

/-- Unsigned 64-bit subtraction (`a - b` on `size_t`): for inputs below
`wsize` this is subtraction modulo `2 ^ 64` with wrap-around. -/
def subW (a b : Nat) : Nat := (a + (wsize - b % wsize)) % wsize

/-- Memory accountant of a cache instance: the compile-time per-item constant
`CacheTraits::kItemMem` plus the optional constructor hints `key_mem_` and
`value_mem_` (absent hints are `none`, mirroring the null `std::function`). -/
structure Acct (K V : Type) where
  kItemMem : Nat
  keyMem : Option (K → Nat)
  valueMem : Option (V → Nat)

/-- Value of an optional hint function at a point (0 when the hint is
absent, i.e. when the `std::function` is null). -/
def hintVal {A : Type} (h : Option (A → Nat)) (x : A) : Nat :=
  match h with
  | some f => f x
  | none => 0

/-- Mathematical (non-wrapping) per-item cost
`kItemMem + 2 * key_mem_(key) + value_mem_(value)`, hint terms dropped when
the corresponding hint is absent. -/
def Acct.rawItemMem {K V : Type} (a : Acct K V) (it : K × V) : Nat :=
  a.kItemMem + hintVal a.keyMem it.1 * 2 + hintVal a.valueMem it.2

/-- The source's `Cache::CalcItemMem`: `size = kItemMem`, then
`size += key_mem_(item.first) * 2` and `size += value_mem_(item.second)` when
the hints exist, all on `size_t`.  The chain of wrapping additions equals the
mathematical sum reduced modulo `2 ^ 64`. -/
def Acct.CalcItemMem {K V : Type} (a : Acct K V) (it : K × V) : Nat :=
  a.rawItemMem it % wsize

/-- The statistics aggregate `lru::CacheInfo` from `stats.h`. -/
structure CacheInfo where
  hits : Nat
  misses : Nat
  maxsize : Nat
  currsize : Nat
  maxmem : Nat
  currmem : Nat
  deriving DecidableEq, Repr

/-- State of one `lru::Cache` object: the item buffer `buf_` (head = most
recently used), the key set of the lookup table `table_`, and the six
statistics fields of `stats_`. -/
structure Cache (K V : Type) where
  buf : List (K × V)
  table : List K
  hits : Nat
  misses : Nat
  maxsize : Nat
  currsize : Nat
  maxmem : Nat
  currmem : Nat
  deriving DecidableEq, Repr

namespace Cache

variable {K V : Type} [DecidableEq K]

/-- The constructor `Cache(maxsize, maxmem, ...)`: empty buffer and table,
statistics `{0, 0, maxsize, 0, maxmem, 0}`. -/
def fresh (maxsize maxmem : Nat) : Cache K V :=
  ⟨[], [], 0, 0, maxsize, 0, maxmem, 0⟩

/-- Keys of the buffer in recency order (head = most recently used). -/
def keys (c : Cache K V) : List K := c.buf.map Prod.fst

/-- Dereference of the buffer iterator stored in `table_` for key `k`:
the unique buffer entry whose key is `k`. -/
def findEntry (c : Cache K V) (k : K) : Option (K × V) :=
  c.buf.find? (fun it => decide (it.1 = k))

/-- The source's `Cache::Touch(it)`:
`buf_.splice(buf_.cbegin(), buf_, it)` moves the entry of key `k` to the
front of the buffer.  (Call sites always pass a valid iterator; the `none`
branch is unreachable there.) -/
def Touch (c : Cache K V) (k : K) : Cache K V :=
  match c.findEntry k with
  | none => c
  | some e => { c with buf := e :: c.buf.eraseP (fun it => decide (it.1 = k)) }

/-- The source's `Cache::Pop()`: if the buffer is nonempty, remove the tail
item, erase its key from the table, and decrement `currsize` / `currmem`
(by the item's `CalcItemMem`) on `size_t`. -/
def Pop (a : Acct K V) (c : Cache K V) : Cache K V :=
  match c.buf.getLast? with
  | none => c
  | some e =>
      { c with buf := c.buf.dropLast,
               table := c.table.erase e.1,
               currsize := subW c.currsize 1,
               currmem := subW c.currmem (a.CalcItemMem e) }

/-- The state inside `Cache::Push` after `emplace_front` / `emplace` and the
two statistics updates, before the limit check. -/
def PushRaw (a : Acct K V) (c : Cache K V) (k : K) (v : V) : Cache K V :=
  { c with buf := (k, v) :: c.buf,
           table := k :: c.table,
           currsize := addW c.currsize 1,
           currmem := addW c.currmem (a.CalcItemMem (k, v)) }

/-- The source's `Cache::Push(key, value)`: emplace the new item at the front
of the buffer and into the table, increment `currsize` and add the item's
cost to `currmem`, then — a single `if`, not a loop — call `Pop()` once when
`currsize > maxsize or currmem > maxmem`. -/
def Push (a : Acct K V) (c : Cache K V) (k : K) (v : V) : Cache K V :=
  if (PushRaw a c k v).maxsize < (PushRaw a c k v).currsize ∨
     (PushRaw a c k v).maxmem < (PushRaw a c k v).currmem
  then Pop a (PushRaw a c k v) else PushRaw a c k v

/-- The recomputed `currmem` inside `Cache::Update`:
`currmem - value_mem_(old) + value_mem_(new)` on `size_t` when the value hint
exists, otherwise unchanged. -/
def UpdMem (a : Acct K V) (c : Cache K V) (old v : V) : Nat :=
  match a.valueMem with
  | some f => addW (subW c.currmem (f old)) (f v)
  | none => c.currmem

/-- The source's `Cache::Update(it, value)`: recompute `currmem` from the
value hint, overwrite the stored value in place, then `Touch` the entry to
the front.  (Call sites always pass a valid iterator.) -/
def Update (a : Acct K V) (c : Cache K V) (k : K) (v : V) : Cache K V :=
  match c.findEntry k with
  | none => c
  | some e =>
      Touch { c with
                buf := c.buf.map (fun it => if it.1 = k then (k, v) else it),
                currmem := UpdMem a c e.2 v } k

/-- The source's `Cache::Set`: `Push` when the key misses the table,
`Update` when it exists. -/
def Set (a : Acct K V) (c : Cache K V) (k : K) (v : V) : Cache K V :=
  if k ∈ c.table then Update a c k v else Push a c k v

/-- The source's `Cache::Add`: `Push` and `true` on a miss; on an existing
key only `Touch` the entry and return `false`. -/
def Add (a : Acct K V) (c : Cache K V) (k : K) (v : V) : Cache K V × Bool :=
  if k ∈ c.table then (Touch c k, false) else (Push a c k v, true)

/-- The source's `Cache::Replace`: `Update` and `true` when the key exists,
otherwise leave the cache alone and return `false`. -/
def Replace (a : Acct K V) (c : Cache K V) (k : K) (v : V) : Cache K V × Bool :=
  if k ∈ c.table then (Update a c k v, true) else (c, false)

/-- The source's `Cache::Get`: on a miss increment `misses` and return the
empty optional; on a hit `Touch` the entry, increment `hits`, and return the
stored value. -/
def Get (c : Cache K V) (k : K) : Cache K V × Option V :=
  if k ∈ c.table then
    let c1 := Touch c k
    ({ c1 with hits := addW c1.hits 1 }, (c1.findEntry k).map Prod.snd)
  else
    ({ c with misses := addW c.misses 1 }, none)

/-- The cost `CalcItemMem(*it->second)` computed at the start of the
`Cache::Delete` body (the iterator is valid there, so the `none` branch is
unreachable at the call site). -/
def DeleteMem (a : Acct K V) (c : Cache K V) (k : K) : Nat :=
  match c.findEntry k with
  | some e => a.CalcItemMem e
  | none => 0

/-- The source's `Cache::Delete`: on an existing key, compute the item's cost,
erase it from the buffer and the table, decrement `currsize`, subtract the
cost from `currmem`, and return `true`; otherwise return `false`. -/
def Delete (a : Acct K V) (c : Cache K V) (k : K) : Cache K V × Bool :=
  if k ∈ c.table then
    ({ c with buf := c.buf.eraseP (fun it => decide (it.1 = k)),
              table := c.table.erase k,
              currsize := subW c.currsize 1,
              currmem := subW c.currmem (DeleteMem a c k) }, true)
  else (c, false)

/-- The source's `Cache::Flush()`: clear buffer and table, zero `currsize`
and `currmem`, leave `hits` / `misses` / limits untouched. -/
def Flush (c : Cache K V) : Cache K V :=
  { c with buf := [], table := [], currsize := 0, currmem := 0 }

/-- Getter `Cache::Size()`. -/
def Size (c : Cache K V) : Nat := c.currsize

/-- Getter `Cache::Memory()`. -/
def Memory (c : Cache K V) : Nat := c.currmem

/-- Getter `Cache::Stats()`. -/
def Stats (c : Cache K V) : CacheInfo :=
  ⟨c.hits, c.misses, c.maxsize, c.currsize, c.maxmem, c.currmem⟩

/-- The source's setter `Cache::Maxsize(items)`: for the sentinel just store
it; otherwise erase every buffer item from position `min(items, buf_.size())`
on (accumulating their costs on `size_t` and erasing their table entries),
store the new limit, clamp `currsize` to `items`, and subtract the
accumulated cost from `currmem`. -/
def Maxsize (a : Acct K V) (c : Cache K V) (items : Nat) : Cache K V :=
  if items = nval then { c with maxsize := items }
  else
    let keep := min items c.buf.length
    let evicted := c.buf.drop keep
    let mem := evicted.foldl (fun acc it => addW acc (a.CalcItemMem it)) 0
    { c with buf := c.buf.take keep,
             table := evicted.foldl (fun t it => t.erase it.1) c.table,
             maxsize := items,
             currsize := if items < c.currsize then items else c.currsize,
             currmem := subW c.currmem mem }

/-- The eviction loop of the source's `Cache::Maxmem(bytes)`:
`while (stats_.currmem > bytes) { Pop(); }`.  The C++ loop body is a no-op
when the buffer is empty (and the loop then never terminates); the
`c.buf ≠ []` conjunct makes the function total and exits exactly where the
C++ loop would spin forever.  The termination theorems show that for states
satisfying the cache invariant the extra conjunct never cuts the loop short
while `currmem > bytes`. -/
def MaxmemLoop (a : Acct K V) (bytes : Nat) (c : Cache K V) : Cache K V :=
  if h : bytes < c.currmem ∧ 0 < c.buf.length then MaxmemLoop a bytes (Pop a c)
  else c
termination_by c.buf.length
decreasing_by
  have hne : c.buf ≠ [] := List.ne_nil_of_length_pos h.2
  simp only [Pop]
  cases hg : c.buf.getLast? with
  | none => exact absurd (List.getLast?_eq_none_iff.mp hg) hne
  | some e =>
      simpa [List.length_dropLast] using
        Nat.sub_lt (List.length_pos_of_ne_nil hne) Nat.one_pos

/-- The source's setter `Cache::Maxmem(bytes)`: run the eviction loop, then
store the new limit (`maxsize` untouched). -/
def Maxmem (a : Acct K V) (c : Cache K V) (bytes : Nat) : Cache K V :=
  let c1 := MaxmemLoop a bytes c
  { c1 with maxmem := bytes }

/-- Items in iteration order `begin() .. end()` (head → tail). -/
def itemsList (c : Cache K V) : List (K × V) := c.buf

/-- Items in reverse iteration order `rbegin() .. rend()` (tail → head). -/
def itemsListRev (c : Cache K V) : List (K × V) := c.buf.reverse

/-- The source's `operator==`: `buf_ == other.buf_` (items and their LRU
order; statistics are not compared). -/
def beq [DecidableEq V] (c d : Cache K V) : Bool := decide (c.buf = d.buf)

end Cache

/-- The 8 little-endian bytes of `serde::aux::EncodeSize(n)`.  The source
copies the in-memory bytes of the `uint64_t` (little-endian on the supported
platforms, and required to match `DecodeSize`, which is little-endian by
construction). -/
def leBytes (n : Nat) : List Nat :=
  [n % 256, n / 256 % 256, n / 256 ^ 2 % 256, n / 256 ^ 3 % 256,
   n / 256 ^ 4 % 256, n / 256 ^ 5 % 256, n / 256 ^ 6 % 256, n / 256 ^ 7 % 256]

/-- Value of a little-endian byte list, as accumulated by
`serde::aux::DecodeSize`: `size |= byte_i << (i * 8)` for `i = 0 .. 7`. -/
def leVal (bs : List Nat) : Nat :=
  bs.foldr (fun b acc => b + 256 * acc) 0

/-- A pluggable serializer pair (`lru::serde::Serde` specializations for the
key and the value type): `Serialize : T -> Bytes` and
`Deserialize : View -> T`. -/
structure SerdePair (K V : Type) where
  serKey : K → List Nat
  deserKey : List Nat → K
  serValue : V → List Nat
  deserValue : List Nat → V

/-- One length-prefixed chunk as written by
`SerializingIterator::SerializeChunk`: `EncodeSize(payload.size())` followed
by the payload bytes. -/
def encodeChunk (payload : List Nat) : List Nat :=
  leBytes payload.length ++ payload

/-- One serialized entry (`SerializingIterator::Serialize`): key chunk, then
value chunk. -/
def serializeEntry {K V : Type} (sp : SerdePair K V) (it : K × V) : List Nat :=
  encodeChunk (sp.serKey it.1) ++ encodeChunk (sp.serValue it.2)

/-- The source's `serde::aux::DecodeSize`: unconditionally dereference and
advance the input iterator 8 times.  When fewer than 8 bytes remain the C++
reads past the end of the input range (undefined behaviour, no error is
raised); the model returns `none` exactly in that case. -/
def decodeSize (bs : List Nat) : Option (Nat × List Nat) :=
  if 8 ≤ bs.length then some (leVal (bs.take 8), bs.drop 8) else none

/-- The source's `DeserializingIterator::ReadChunk(size)` (and the
zero-copy view construction of the contiguous branch): take `size` bytes
from the input.  When fewer than `size` bytes remain the C++ reads past the
end of the input range (undefined behaviour); the model returns `none`
exactly in that case. -/
def readChunk (n : Nat) (bs : List Nat) : Option (List Nat × List Nat) :=
  if n ≤ bs.length then some (bs.take n, bs.drop n) else none

/-- Decode one length-prefixed chunk
(`DeserializingIterator::DeserializeChunk` before the `Serde` call). -/
def parseChunk (bs : List Nat) : Option (List Nat × List Nat) :=
  match decodeSize bs with
  | none => none
  | some (n, rest) => readChunk n rest

/-- Decode one entry (`DeserializingIterator::Deserialize`): key chunk, then
value chunk, each payload handed to the corresponding `Serde` deserializer. -/
def parseEntry {K V : Type} (sp : SerdePair K V) (bs : List Nat) :
    Option ((K × V) × List Nat) :=
  match parseChunk bs with
  | none => none
  | some (kc, r1) =>
      match parseChunk r1 with
      | none => none
      | some (vc, r2) => some ((sp.deserKey kc, sp.deserValue vc), r2)

/-- The deserialization loop of `Cache::Load` (the `std::for_each` over
`DeserializingIterator`): while input remains, decode one entry.  `fuel`
bounds the number of iterations; since every decoded entry consumes at least
16 bytes, the wrapper's `bs.length` fuel can never be exhausted, so the model
agrees with the unbounded C++ loop.  `none` marks the out-of-bounds input
reads described at `decodeSize` / `readChunk`. -/
def parseEntriesFuel {K V : Type} (sp : SerdePair K V) :
    Nat → List Nat → Option (List (K × V))
  | _, [] => some []
  | 0, _ :: _ => none
  | fuel + 1, b :: bs =>
      match parseEntry sp (b :: bs) with
      | none => none
      | some (it, rest) => (parseEntriesFuel sp fuel rest).map (it :: ·)

/-- Decode a whole byte stream into the entry list it carries
(tail-to-head order, as written by `Dump`). -/
def parseEntries {K V : Type} (sp : SerdePair K V) (bs : List Nat) :
    Option (List (K × V)) :=
  parseEntriesFuel sp bs.length bs

namespace Cache

variable {K V : Type} [DecidableEq K]

/-- The source's `Cache::Dump`: serialize the items in reverse order
(`rbegin() .. rend()`, tail to head) and concatenate the chunks.  A pure
read: the cache and its statistics are untouched. -/
def Dump (sp : SerdePair K V) (c : Cache K V) : List Nat :=
  (c.buf.reverse).foldr (fun it acc => serializeEntry sp it ++ acc) []

/-- The source's `Cache::Load`: `Flush()` the cache, then replay every
decoded entry through `Set` in stream order.  The C++ interleaves decoding
and `Set`; the net state on a well-formed stream is identical.  On a
malformed stream the C++ performs the out-of-bounds reads modelled by
`parseEntries = none`, and the model returns `none` for the whole call. -/
def Load (sp : SerdePair K V) (a : Acct K V) (c : Cache K V)
    (bytes : List Nat) : Option (Cache K V) :=
  (parseEntries sp bytes).map
    (fun items => items.foldl (fun st it => Set a st it.1 it.2) (Flush c))

end Cache

/-- One public mutating call on the cache, for claims quantifying over
operation sequences.  (`Dump`, the getters, iteration and `operator==` are
pure reads and do not change the state.) -/
inductive Op (K V : Type) where
  | set (k : K) (v : V)
  | add (k : K) (v : V)
  | replace (k : K) (v : V)
  | get (k : K)
  | del (k : K)
  | flush
  | maxsize (n : Nat)
  | maxmem (b : Nat)
  | load (bytes : List Nat)
  deriving DecidableEq

/-- Apply one public call to the cache state.  Only `load` can fail
(`none` = the undefined out-of-bounds reads of a malformed stream). -/
def applyOp {K V : Type} [DecidableEq K] (sp : SerdePair K V) (a : Acct K V)
    (c : Cache K V) : Op K V → Option (Cache K V)
  | .set k v => some (Cache.Set a c k v)
  | .add k v => some (Cache.Add a c k v).1
  | .replace k v => some (Cache.Replace a c k v).1
  | .get k => some (Cache.Get c k).1
  | .del k => some (Cache.Delete a c k).1
  | .flush => some (Cache.Flush c)
  | .maxsize n => some (Cache.Maxsize a c n)
  | .maxmem b => some (Cache.Maxmem a c b)
  | .load bytes => Cache.Load sp a c bytes

/-- Run a sequence of public calls from a starting state. -/
def runOps {K V : Type} [DecidableEq K] (sp : SerdePair K V) (a : Acct K V)
    (c : Cache K V) : List (Op K V) → Option (Cache K V)
  | [] => some c
  | op :: rest =>
      match applyOp sp a c op with
      | none => none
      | some c' => runOps sp a c' rest

/-- State of one `lru::SafeCache` object: the privately inherited core cache
plus the recursive mutex, modelled for a single thread by its recursion
count (0 = unlocked). -/
structure SafeCache (K V : Type) where
  core : Cache K V
  mutex : Nat
  deriving DecidableEq

/-- The RAII wrapper `lru::ScopeGuard<T>` returned by `SafeCache` reads:
it carries the returned value, and its existence stands for one acquisition
of the cache mutex (released by `guardDrop` when the guard dies). -/
structure ScopeGuard (T : Type) where
  val : T
  deriving DecidableEq

namespace SafeCache

variable {K V : Type} [DecidableEq K]

/-- Acquire the recursive mutex (`Lock lock(mutex_)` / `Guard guard(mutex_)`). -/
def lockM (s : SafeCache K V) : SafeCache K V := { s with mutex := s.mutex + 1 }

/-- Release one acquisition of the recursive mutex. -/
def unlockM (s : SafeCache K V) : SafeCache K V := { s with mutex := s.mutex - 1 }

/-- Destruction of a `ScopeGuard` at the end of the caller's scope: the lock
acquired for the call is released. -/
def guardDrop (s : SafeCache K V) : SafeCache K V := unlockM s

/-- `SafeCache::Set`: lock for the duration of the call, forward to
`Cache::Set`. -/
def SetS (a : Acct K V) (s : SafeCache K V) (k : K) (v : V) : SafeCache K V :=
  let s1 := lockM s
  unlockM { s1 with core := Cache.Set a s1.core k v }

/-- `SafeCache::Add`: lock, forward, and return the result inside a
`ScopeGuard` that keeps the lock held until the guard dies. -/
def AddS (a : Acct K V) (s : SafeCache K V) (k : K) (v : V) :
    SafeCache K V × ScopeGuard Bool :=
  let s1 := lockM s
  let r := Cache.Add a s1.core k v
  ({ s1 with core := r.1 }, ⟨r.2⟩)

/-- `SafeCache::Replace`: lock, forward, guard the result. -/
def ReplaceS (a : Acct K V) (s : SafeCache K V) (k : K) (v : V) :
    SafeCache K V × ScopeGuard Bool :=
  let s1 := lockM s
  let r := Cache.Replace a s1.core k v
  ({ s1 with core := r.1 }, ⟨r.2⟩)

/-- `SafeCache::Get`: lock, forward, guard the optional value. -/
def GetS (s : SafeCache K V) (k : K) : SafeCache K V × ScopeGuard (Option V) :=
  let s1 := lockM s
  let r := Cache.Get s1.core k
  ({ s1 with core := r.1 }, ⟨r.2⟩)

/-- `SafeCache::Delete`: lock, forward, guard the result. -/
def DeleteS (a : Acct K V) (s : SafeCache K V) (k : K) :
    SafeCache K V × ScopeGuard Bool :=
  let s1 := lockM s
  let r := Cache.Delete a s1.core k
  ({ s1 with core := r.1 }, ⟨r.2⟩)

/-- `SafeCache::Flush`: lock for the duration of the call, forward. -/
def FlushS (s : SafeCache K V) : SafeCache K V :=
  let s1 := lockM s
  unlockM { s1 with core := Cache.Flush s1.core }

/-- `SafeCache::Size`: lock, read, guard the value. -/
def SizeS (s : SafeCache K V) : SafeCache K V × ScopeGuard Nat :=
  (lockM s, ⟨(lockM s).core.Size⟩)

/-- `SafeCache::Memory`: lock, read, guard the value. -/
def MemoryS (s : SafeCache K V) : SafeCache K V × ScopeGuard Nat :=
  (lockM s, ⟨(lockM s).core.Memory⟩)

/-- `SafeCache::Maxsize()` getter: lock, read, guard the value. -/
def MaxsizeGetS (s : SafeCache K V) : SafeCache K V × ScopeGuard Nat :=
  (lockM s, ⟨(lockM s).core.maxsize⟩)

/-- `SafeCache::Maxmem()` getter: lock, read, guard the value. -/
def MaxmemGetS (s : SafeCache K V) : SafeCache K V × ScopeGuard Nat :=
  (lockM s, ⟨(lockM s).core.maxmem⟩)

/-- `SafeCache::Stats`: lock, read, guard the aggregate. -/
def StatsS (s : SafeCache K V) : SafeCache K V × ScopeGuard CacheInfo :=
  (lockM s, ⟨(lockM s).core.Stats⟩)

/-- `SafeCache::Maxsize(items)` setter: lock for the duration, forward. -/
def MaxsizeS (a : Acct K V) (s : SafeCache K V) (items : Nat) : SafeCache K V :=
  let s1 := lockM s
  unlockM { s1 with core := Cache.Maxsize a s1.core items }

/-- `SafeCache::Maxmem(bytes)` setter: lock for the duration, forward. -/
def MaxmemS (a : Acct K V) (s : SafeCache K V) (bytes : Nat) : SafeCache K V :=
  let s1 := lockM s
  unlockM { s1 with core := Cache.Maxmem a s1.core bytes }

/-- `SafeCache::Dump`: lock for the duration, forward (a pure read of the
core). -/
def DumpS (sp : SerdePair K V) (s : SafeCache K V) : List Nat :=
  (lockM s).core.Dump sp

/-- `SafeCache::Load`: lock for the duration, forward. -/
def LoadS (sp : SerdePair K V) (a : Acct K V) (s : SafeCache K V)
    (bytes : List Nat) : Option (SafeCache K V) :=
  let s1 := lockM s
  (Cache.Load sp a s1.core bytes).map fun c => unlockM { s1 with core := c }

/-- `SafeCache::begin() .. end()` iteration: lock, guard the item sequence. -/
def itemsListS (s : SafeCache K V) : SafeCache K V × ScopeGuard (List (K × V)) :=
  (lockM s, ⟨(lockM s).core.itemsList⟩)

/-- `SafeCache::operator==`: lock, forward to the core comparison, guard the
boolean. -/
def beqS [DecidableEq V] (s other : SafeCache K V) :
    SafeCache K V × ScopeGuard Bool :=
  (lockM s, ⟨(lockM s).core.beq other.core⟩)

end SafeCache

/-- Source-level sum of the per-item costs over a buffer (each term is the
`size_t` value `CalcItemMem` computes; the sum itself is mathematical). -/
def memSum {K V : Type} (a : Acct K V) (buf : List (K × V)) : Nat :=
  (buf.map a.CalcItemMem).sum

/-- Mathematical (non-wrapping) sum of per-item costs
`kItemMem + 2 * keyHint + valueHint` over a buffer. -/
def rawMemSum {K V : Type} (a : Acct K V) (buf : List (K × V)) : Nat :=
  (buf.map a.rawItemMem).sum

/-- The internal consistency invariant of a `Cache` object.  It packages the
data-model invariants of the source (the table's key set mirrors the buffer,
keys are unique, `currsize` counts the buffer, `currmem` sums the per-item
costs) together with the machine-width side conditions under which the
`size_t` arithmetic of the source does not wrap (these hold in every
physically realizable C++ execution, where at most `2 ^ 64 - 1` bytes
exist). -/
structure Inv {K V : Type} [DecidableEq K] (a : Acct K V) (c : Cache K V) :
    Prop where
  perm : c.table.Perm c.keys
  nodup : c.keys.Nodup
  size : c.currsize = c.buf.length
  mem : c.currmem = memSum a c.buf
  costs : ∀ it ∈ c.buf, a.rawItemMem it < wsize
  len_lt : c.buf.length < wsize
  sum_lt : memSum a c.buf < wsize

/-- Arithmetic room for one public call: the bounds under which the `size_t`
counters of the source cannot wrap while executing it.  (Reads and
limit-shrinking calls need none.) -/
def OpRoom {K V : Type} (sp : SerdePair K V) (a : Acct K V) (c : Cache K V) :
    Op K V → Prop
  | .set k v => a.rawItemMem (k, v) < wsize ∧ c.buf.length + 1 < wsize ∧
      memSum a c.buf + a.CalcItemMem (k, v) < wsize
  | .add k v => a.rawItemMem (k, v) < wsize ∧ c.buf.length + 1 < wsize ∧
      memSum a c.buf + a.CalcItemMem (k, v) < wsize
  | .replace k v => a.rawItemMem (k, v) < wsize ∧
      memSum a c.buf + a.CalcItemMem (k, v) < wsize
  | .load bytes =>
      ∀ items, parseEntries sp bytes = some items →
        (∀ it ∈ items, a.rawItemMem it < wsize) ∧
        items.length < wsize ∧ memSum a items < wsize
  | _ => True

/-- An accountant with no hint functions (the default constructor arguments
`key_mem = nullptr`, `value_mem = nullptr`): every item then costs exactly
`kItemMem`. -/
def Acct.plain {K V : Type} (a : Acct K V) : Prop :=
  a.keyMem = none ∧ a.valueMem = none

/-- Limit arguments appearing in an operation sequence, bounded away from the
sentinel: `maxsize` arguments stay below `nval` and `maxmem` arguments leave
room for one item cost below `2 ^ 64`. -/
def BoundedLimits {K V : Type} (a : Acct K V) (ops : List (Op K V)) : Prop :=
  ∀ op ∈ ops,
    (∀ n, op = Op.maxsize n → n < nval) ∧
    (∀ b, op = Op.maxmem b → b + a.kItemMem < wsize)

/-- A concrete hint-free accountant (for witnesses): `kItemMem = 24`, the
typical value of `sizeof(Buf::value_type) + sizeof(Table::value_type)` for
`Cache<int, char>`. -/
def acctPlain : Acct Nat Nat := ⟨24, none, none⟩

/-- A concrete accountant with a value hint (for counterexamples): the value
itself is its dynamic-buffer size. -/
def acctHinted : Acct Nat Nat := ⟨16, none, some (fun v => v)⟩

/-- The `Serde<uint64_t>` specialization of the source for `Nat` keys and
values: serialize to the 8 little-endian bytes, deserialize by reading
`sizeof(T) = 8` bytes back. -/
def natSerde : SerdePair Nat Nat :=
  ⟨leBytes, fun bs => leVal (bs.take 8), leBytes, fun bs => leVal (bs.take 8)⟩

/-- A concrete reachable state of a value-hinted cache with `maxsize = 10`,
`maxmem = 100`: `Set(1, 5); Set(2, 5); Set(3, 200)` from a fresh cache.  The
final `Set` pushes an item of cost `216` and `Push` evicts only once, leaving
`currmem = 237 > maxmem`. -/
def cexState : Cache Nat Nat :=
  Cache.Set acctHinted
    (Cache.Set acctHinted
      (Cache.Set acctHinted (Cache.fresh 10 100) 1 5) 2 5) 3 200

/-- A concrete compliant hint-free cache state (for the round-trip witness):
two entries of cost `24` each, `currmem = 48 ≤ maxmem = 100`,
`currsize = 2 ≤ maxsize = 10`. -/
def rtState : Cache Nat Nat :=
  ⟨[(3, 4), (1, 2)], [1, 3], 0, 0, 10, 2, 100, 48⟩

/-- Good states of a hint-free cache operated with bounded limits: the
internal invariant, compliance with both limits, and the machine-width side
conditions that keep the `size_t` arithmetic exact. -/
def PlainGood {K V : Type} [DecidableEq K] (a : Acct K V) (c : Cache K V) :
    Prop :=
  Inv a c ∧ c.currsize ≤ c.maxsize ∧ c.currmem ≤ c.maxmem ∧
  c.maxsize < nval ∧ c.maxmem + a.kItemMem < wsize

/-! ### Arithmetic helpers for the wrapped `size_t` operations -/

theorem wsize_pos : 0 < wsize := Nat.two_pow_pos 64

theorem addW_lt (a b : Nat) : addW a b < wsize := Nat.mod_lt _ wsize_pos

theorem addW_eq {a b : Nat} (h : a + b < wsize) : addW a b = a + b :=
  Nat.mod_eq_of_lt h

theorem subW_lt (a b : Nat) : subW a b < wsize := Nat.mod_lt _ wsize_pos

theorem subW_eq {a b : Nat} (hb : b ≤ a) (ha : a < wsize) : subW a b = a - b := by
  have hbw : b < wsize := lt_of_le_of_lt hb ha
  unfold subW
  rw [Nat.mod_eq_of_lt hbw]
  have hsplit : a + (wsize - b) = a - b + wsize := by omega
  rw [hsplit, Nat.add_mod_right, Nat.mod_eq_of_lt (by omega)]

/-! ### List helpers -/

theorem perm_cons_eraseP {α : Type} (p : α → Bool) :
    ∀ {l : List α} {e : α}, l.find? p = some e → l.Perm (e :: l.eraseP p) := by
  intro l
  induction l with
  | nil => intro e h; simp [List.find?] at h
  | cons x xs ih =>
      intro e h
      by_cases hp : p x
      · rw [List.find?_cons_of_pos _ hp] at h
        cases h
        rw [List.eraseP_cons_of_pos hp]
      · rw [List.find?_cons_of_neg _ hp] at h
        rw [List.eraseP_cons_of_neg hp]
        exact ((ih h).cons x).trans (List.Perm.swap e x _)

theorem erase_eq_erasePd {K : Type} [DecidableEq K] (k : K) :
    ∀ l : List K, l.erase k = l.eraseP (fun x => decide (x = k)) := by
  intro l
  induction l with
  | nil => rfl
  | cons x xs ih =>
      by_cases hx : x = k
      · subst hx
        rw [List.erase_cons_head, List.eraseP_cons_of_pos (by simp)]
      · rw [List.erase_cons_tail (by simpa using hx),
            List.eraseP_cons_of_neg (by simpa using hx), ih]

theorem map_fst_eraseP {K V : Type} [DecidableEq K] (k : K) :
    ∀ buf : List (K × V),
      (buf.eraseP (fun it => decide (it.1 = k))).map Prod.fst
        = (buf.map Prod.fst).eraseP (fun x => decide (x = k)) := by
  intro buf
  induction buf with
  | nil => rfl
  | cons x xs ih =>
      by_cases hx : x.1 = k
      · rw [List.eraseP_cons_of_pos (by simpa using hx)]
        simp only [List.map_cons]
        rw [List.eraseP_cons_of_pos (by simpa using hx)]
      · rw [List.eraseP_cons_of_neg (by simpa using hx)]
        simp only [List.map_cons]
        rw [List.eraseP_cons_of_neg (by simpa using hx), ih]

theorem find?_key_of_mem {K V : Type} [DecidableEq K] {buf : List (K × V)}
    {k : K} (h : k ∈ buf.map Prod.fst) :
    ∃ e, buf.find? (fun it => decide (it.1 = k)) = some e ∧ e.1 = k := by
  obtain ⟨it, hit, hfst⟩ := List.mem_map.mp h
  cases hfind : buf.find? (fun it => decide (it.1 = k)) with
  | none =>
      exact absurd (by simpa using hfst)
        (by simpa using List.find?_eq_none.mp hfind it hit)
  | some e =>
      exact ⟨e, rfl, by simpa using List.find?_some hfind⟩

/-! ### Cost-sum helpers -/

theorem memSum_nil {K V : Type} (a : Acct K V) : memSum a [] = 0 := rfl

theorem memSum_cons {K V : Type} (a : Acct K V) (it : K × V)
    (buf : List (K × V)) :
    memSum a (it :: buf) = a.CalcItemMem it + memSum a buf := by
  simp [memSum]

theorem memSum_append {K V : Type} (a : Acct K V) (l₁ l₂ : List (K × V)) :
    memSum a (l₁ ++ l₂) = memSum a l₁ + memSum a l₂ := by
  simp [memSum]

theorem memSum_perm {K V : Type} (a : Acct K V) {l₁ l₂ : List (K × V)}
    (h : l₁.Perm l₂) : memSum a l₁ = memSum a l₂ :=
  (h.map a.CalcItemMem).sum_eq

theorem memSum_sublist_le {K V : Type} (a : Acct K V) {l₁ l₂ : List (K × V)}
    (h : l₁.Sublist l₂) : memSum a l₁ ≤ memSum a l₂ := by
  induction h with
  | slnil => exact le_rfl
  | cons it _ ih =>
      rw [memSum_cons]
      omega
  | cons₂ it _ ih =>
      rw [memSum_cons, memSum_cons]
      omega

theorem calcItemMem_le_memSum {K V : Type} (a : Acct K V) {buf : List (K × V)}
    {e : K × V} (h : e ∈ buf) : a.CalcItemMem e ≤ memSum a buf :=
  List.single_le_sum (fun _ _ => Nat.zero_le _) _ (List.mem_map_of_mem _ h)

theorem calcItemMem_lt (a : Acct Nat Nat) (it : Nat × Nat) :
    a.CalcItemMem it < wsize := Nat.mod_lt _ wsize_pos

theorem calcItemMem_lt' {K V : Type} (a : Acct K V) (it : K × V) :
    a.CalcItemMem it < wsize := Nat.mod_lt _ wsize_pos

theorem calcItemMem_eq_raw {K V : Type} {a : Acct K V} {it : K × V}
    (h : a.rawItemMem it < wsize) : a.CalcItemMem it = a.rawItemMem it :=
  Nat.mod_eq_of_lt h

theorem memSum_eq_rawMemSum {K V : Type} {a : Acct K V} {buf : List (K × V)}
    (h : ∀ it ∈ buf, a.rawItemMem it < wsize) :
    memSum a buf = rawMemSum a buf := by
  unfold memSum rawMemSum
  congr 1
  exact List.map_congr_left fun it hit => calcItemMem_eq_raw (h it hit)

/-! ### Invariant preservation for the private helpers -/

theorem Inv_fresh {K V : Type} [DecidableEq K] (a : Acct K V) (ms mm : Nat) :
    Inv a (Cache.fresh ms mm : Cache K V) := by
  refine ⟨List.Perm.refl _, List.nodup_nil, rfl, rfl, ?_, wsize_pos, wsize_pos⟩
  intro it hit
  simp [Cache.fresh] at hit

theorem Flush_inv {K V : Type} [DecidableEq K] {a : Acct K V}
    (c : Cache K V) : Inv a (Cache.Flush c) := by
  refine ⟨List.Perm.refl _, List.nodup_nil, rfl, rfl, ?_, wsize_pos, wsize_pos⟩
  intro it hit
  simp [Cache.Flush] at hit

theorem Pop_inv {K V : Type} [DecidableEq K] {a : Acct K V} {c : Cache K V}
    (h : Inv a c) : Inv a (Cache.Pop a c) := by
  unfold Cache.Pop
  cases hg : c.buf.getLast? with
  | none => exact h
  | some e =>
      have hne : c.buf ≠ [] := by
        intro hnil; rw [hnil] at hg; simp at hg
      have hegl : e = c.buf.getLast hne := by
        have h2 := List.getLast?_eq_getLast c.buf hne
        rw [hg] at h2
        exact Option.some_injective _ h2
      have hdecomp : c.buf.dropLast ++ [e] = c.buf := by
        rw [hegl]; exact List.dropLast_append_getLast hne
      have hkeys : c.buf.map Prod.fst
          = c.buf.dropLast.map Prod.fst ++ [e.1] := by
        conv_lhs => rw [← hdecomp]
        simp
      have hnodupd : (c.buf.dropLast.map Prod.fst ++ [e.1]).Nodup := by
        rw [← hkeys]; exact h.nodup
      have he_not : e.1 ∉ c.buf.dropLast.map Prod.fst := by
        intro hmem
        rcases List.nodup_append.mp hnodupd with ⟨_, _, hdisj⟩
        exact hdisj hmem (by simp)
      have hmem_sum : memSum a c.buf
          = memSum a c.buf.dropLast + a.CalcItemMem e := by
        conv_lhs => rw [← hdecomp]
        simp [memSum_append, memSum_cons, memSum_nil]
      have hlen : c.buf.length = c.buf.dropLast.length + 1 := by
        conv_lhs => rw [← hdecomp]
        simp
      refine ⟨?_, ?_, ?_, ?_, ?_, ?_, ?_⟩
      · show (c.table.erase e.1).Perm (c.buf.dropLast.map Prod.fst)
        have h1 : (c.table.erase e.1).Perm ((c.buf.map Prod.fst).erase e.1) := by
          simpa [Cache.keys] using h.perm.erase e.1
        have h2 : (c.buf.map Prod.fst).erase e.1
            = c.buf.dropLast.map Prod.fst := by
          rw [hkeys, List.erase_append_right _ he_not]
          simp
        rwa [h2] at h1
      · show (c.buf.dropLast.map Prod.fst).Nodup
        have hsub : (c.buf.dropLast.map Prod.fst).Sublist (c.buf.map Prod.fst) :=
          List.Sublist.map _ (List.dropLast_sublist c.buf)
        exact (h.nodup : (c.buf.map Prod.fst).Nodup).sublist hsub
      · show subW c.currsize 1 = c.buf.dropLast.length
        rw [h.size, hlen, subW_eq (by omega) (by rw [← hlen]; exact h.len_lt)]
        omega
      · show subW c.currmem (a.CalcItemMem e) = memSum a c.buf.dropLast
        have hcle : a.CalcItemMem e ≤ memSum a c.buf := by
          rw [hmem_sum]; omega
        rw [h.mem, subW_eq hcle h.sum_lt, hmem_sum]
        omega
      · intro it hit
        exact h.costs it ((List.dropLast_sublist c.buf).mem hit)
      · exact lt_of_le_of_lt (List.dropLast_sublist c.buf).length_le h.len_lt
      · exact lt_of_le_of_lt (memSum_sublist_le a (List.dropLast_sublist c.buf))
          h.sum_lt

theorem Touch_buf_perm {K V : Type} [DecidableEq K] (c : Cache K V) (k : K) :
    (Cache.Touch c k).buf.Perm c.buf := by
  unfold Cache.Touch
  cases hf : c.findEntry k with
  | none => exact List.Perm.refl _
  | some e => exact (perm_cons_eraseP _ hf).symm

theorem Touch_fields {K V : Type} [DecidableEq K] (c : Cache K V) (k : K) :
    (Cache.Touch c k).table = c.table ∧ (Cache.Touch c k).hits = c.hits ∧
    (Cache.Touch c k).misses = c.misses ∧
    (Cache.Touch c k).maxsize = c.maxsize ∧
    (Cache.Touch c k).currsize = c.currsize ∧
    (Cache.Touch c k).maxmem = c.maxmem ∧
    (Cache.Touch c k).currmem = c.currmem := by
  unfold Cache.Touch
  cases c.findEntry k <;> exact ⟨rfl, rfl, rfl, rfl, rfl, rfl, rfl⟩

theorem Touch_inv {K V : Type} [DecidableEq K] {a : Acct K V} {c : Cache K V}
    (h : Inv a c) (k : K) : Inv a (Cache.Touch c k) := by
  obtain ⟨ht, _, _, _, hcs, _, hcm⟩ := Touch_fields c k
  have hperm := Touch_buf_perm c k
  refine ⟨?_, ?_, ?_, ?_, ?_, ?_, ?_⟩
  · show (Cache.Touch c k).table.Perm ((Cache.Touch c k).buf.map Prod.fst)
    rw [ht]
    exact h.perm.trans (hperm.map Prod.fst).symm
  · show ((Cache.Touch c k).buf.map Prod.fst).Nodup
    exact ((hperm.map Prod.fst).nodup_iff).mpr h.nodup
  · rw [hcs, h.size, hperm.length_eq]
  · rw [hcm, h.mem, memSum_perm a hperm]
  · intro it hit
    exact h.costs it (hperm.mem_iff.mp hit)
  · show (Cache.Touch c k).buf.length < wsize
    rw [hperm.length_eq]; exact h.len_lt
  · show memSum a (Cache.Touch c k).buf < wsize
    rw [memSum_perm a hperm]; exact h.sum_lt

theorem Touch_head {K V : Type} [DecidableEq K] {c : Cache K V} {k : K}
    (h : k ∈ c.buf.map Prod.fst) :
    ∃ e, (Cache.Touch c k).buf.head? = some e ∧ e.1 = k := by
  obtain ⟨e, hf, hk⟩ := find?_key_of_mem h
  refine ⟨e, ?_, hk⟩
  have hf' : c.findEntry k = some e := hf
  unfold Cache.Touch
  rw [hf']
  rfl

theorem Push_buf {K V : Type} [DecidableEq K] (a : Acct K V) (c : Cache K V)
    (k : K) (v : V) :
    (Cache.Push a c k v).buf
      = if c.maxsize < addW c.currsize 1 ∨
           c.maxmem < addW c.currmem (a.CalcItemMem (k, v))
        then ((k, v) :: c.buf).dropLast else (k, v) :: c.buf := by
  unfold Cache.Push Cache.PushRaw
  dsimp only
  by_cases hcond : c.maxsize < addW c.currsize 1 ∨
      c.maxmem < addW c.currmem (a.CalcItemMem (k, v))
  · rw [if_pos hcond, if_pos hcond]
    unfold Cache.Pop
    dsimp only
    cases hg : ((k, v) :: c.buf).getLast? with
    | none => simp at hg
    | some e => rfl
  · rw [if_neg hcond, if_neg hcond]

theorem Push_inv {K V : Type} [DecidableEq K] {a : Acct K V} {c : Cache K V}
    {k : K} {v : V} (h : Inv a c) (hk : k ∉ c.buf.map Prod.fst)
    (h1 : a.rawItemMem (k, v) < wsize) (h2 : c.buf.length + 1 < wsize)
    (h3 : memSum a c.buf + a.CalcItemMem (k, v) < wsize) :
    Inv a (Cache.Push a c k v) := by
  have hc1 : Inv a (Cache.PushRaw a c k v) := by
    unfold Cache.PushRaw
    refine ⟨?_, ?_, ?_, ?_, ?_, ?_, ?_⟩
    · show (k :: c.table).Perm (((k, v) :: c.buf).map Prod.fst)
      simpa using h.perm.cons k
    · show (((k, v) :: c.buf).map Prod.fst).Nodup
      simpa using List.nodup_cons.mpr ⟨hk, h.nodup⟩
    · show addW c.currsize 1 = ((k, v) :: c.buf).length
      rw [h.size, addW_eq (by omega)]
      simp
    · show addW c.currmem (a.CalcItemMem (k, v)) = memSum a ((k, v) :: c.buf)
      rw [h.mem, addW_eq (by omega), memSum_cons]
      omega
    · intro it hit
      rcases List.mem_cons.mp hit with rfl | hmem
      · exact h1
      · exact h.costs it hmem
    · simpa using h2
    · rw [memSum_cons]; omega
  unfold Cache.Push
  split
  · exact Pop_inv hc1
  · exact hc1

theorem map_fst_replaceValue {K V : Type} [DecidableEq K] (k : K) (v : V)
    (buf : List (K × V)) :
    (buf.map (fun it => if it.1 = k then (k, v) else it)).map Prod.fst
      = buf.map Prod.fst := by
  rw [List.map_map]
  apply List.map_congr_left
  intro it _
  by_cases hx : it.1 = k <;> simp [Function.comp, hx]

theorem memSum_replaceValue {K V : Type} [DecidableEq K] (a : Acct K V)
    (k : K) (v : V) :
    ∀ {buf : List (K × V)} {e : K × V},
      (buf.map Prod.fst).Nodup →
      buf.find? (fun it => decide (it.1 = k)) = some e →
      memSum a (buf.map (fun it => if it.1 = k then (k, v) else it))
          + a.CalcItemMem e
        = memSum a buf + a.CalcItemMem (k, v) := by
  intro buf
  induction buf with
  | nil => intro e _ hfind; simp at hfind
  | cons x xs ih =>
      intro e hnodup hfind
      have hnodup' : (xs.map Prod.fst).Nodup :=
        (List.nodup_cons.mp (by simpa using hnodup)).2
      by_cases hx : x.1 = k
      · rw [List.find?_cons_of_pos _ (by simpa using hx)] at hfind
        cases hfind
        have hnk : ∀ it ∈ xs, it.1 ≠ k := by
          intro it hit heq
          have hkmem : k ∈ xs.map Prod.fst := heq ▸ List.mem_map_of_mem _ hit
          have hx1 : x.1 ∉ xs.map Prod.fst :=
            (List.nodup_cons.mp (by simpa using hnodup)).1
          exact hx1 (hx ▸ hkmem)
        have hxs : xs.map (fun it => if it.1 = k then (k, v) else it) = xs := by
          calc xs.map (fun it => if it.1 = k then (k, v) else it)
              = xs.map id := List.map_congr_left
                (fun it hit => by simp [hnk it hit])
            _ = xs := List.map_id _
        simp only [List.map_cons, if_pos hx]
        rw [hxs, memSum_cons, memSum_cons]
        omega
      · rw [List.find?_cons_of_neg _ (by simpa using hx)] at hfind
        simp only [List.map_cons, if_neg hx]
        rw [memSum_cons, memSum_cons]
        have := ih hnodup' hfind
        omega

theorem hintVal_some {A : Type} (f : A → Nat) (x : A) :
    hintVal (some f) x = f x := rfl

theorem hintVal_none {A : Type} (x : A) :
    hintVal (none : Option (A → Nat)) x = 0 := rfl

theorem valueHint_le_raw {K V : Type} {a : Acct K V} {f : V → Nat}
    (hv : a.valueMem = some f) (it : K × V) : f it.2 ≤ a.rawItemMem it := by
  unfold Acct.rawItemMem
  rw [hv, hintVal_some]
  omega

theorem raw_shift_value {K V : Type} {a : Acct K V} {f : V → Nat}
    (hv : a.valueMem = some f) {e : K × V} {k : K} (hek : e.1 = k) (v : V) :
    a.rawItemMem e + f v = a.rawItemMem (k, v) + f e.2 := by
  unfold Acct.rawItemMem
  rw [hv]
  dsimp only
  rw [hintVal_some, hintVal_some, hek]
  omega

theorem raw_eq_noval {K V : Type} {a : Acct K V}
    (hv : a.valueMem = none) {e : K × V} {k : K} (hek : e.1 = k) (v : V) :
    a.rawItemMem e = a.rawItemMem (k, v) := by
  unfold Acct.rawItemMem
  rw [hv]
  dsimp only
  rw [hintVal_none, hintVal_none, hek]

theorem Update_inv {K V : Type} [DecidableEq K] {a : Acct K V} {c : Cache K V}
    {k : K} {v : V} (h : Inv a c) (hk : k ∈ c.buf.map Prod.fst)
    (h1 : a.rawItemMem (k, v) < wsize)
    (h3 : memSum a c.buf + a.CalcItemMem (k, v) < wsize) :
    Inv a (Cache.Update a c k v) := by
  obtain ⟨e, hf, hek⟩ := find?_key_of_mem hk
  have he_mem : e ∈ c.buf := List.mem_of_find?_eq_some hf
  have hraw_e : a.rawItemMem e < wsize := h.costs e he_mem
  have hcost_e : a.CalcItemMem e = a.rawItemMem e := calcItemMem_eq_raw hraw_e
  have hcost_kv : a.CalcItemMem (k, v) = a.rawItemMem (k, v) :=
    calcItemMem_eq_raw h1
  have hcost_le : a.CalcItemMem e ≤ memSum a c.buf := calcItemMem_le_memSum a he_mem
  have hsum := memSum_replaceValue a k v h.nodup hf
  have hf' : c.findEntry k = some e := hf
  unfold Cache.Update
  rw [hf']
  apply Touch_inv
  refine ⟨?_, ?_, ?_, ?_, ?_, ?_, ?_⟩
  · show c.table.Perm
      ((c.buf.map (fun it => if it.1 = k then (k, v) else it)).map Prod.fst)
    rw [map_fst_replaceValue]
    exact h.perm
  · show ((c.buf.map (fun it => if it.1 = k then (k, v) else it)).map Prod.fst).Nodup
    rw [map_fst_replaceValue]
    exact h.nodup
  · show c.currsize = (c.buf.map (fun it => if it.1 = k then (k, v) else it)).length
    rw [List.length_map]
    exact h.size
  · show Cache.UpdMem a c e.2 v
      = memSum a (c.buf.map (fun it => if it.1 = k then (k, v) else it))
    unfold Cache.UpdMem
    cases hv : a.valueMem with
    | none =>
        dsimp only
        have hre := raw_eq_noval hv hek v
        rw [h.mem]
        omega
    | some f =>
        dsimp only
        have hm := h.mem
        have hfle : f e.2 ≤ c.currmem := by
          rw [h.mem]
          calc f e.2 ≤ a.rawItemMem e := valueHint_le_raw hv e
            _ = a.CalcItemMem e := hcost_e.symm
            _ ≤ memSum a c.buf := hcost_le
        have hshift := raw_shift_value hv hek v
        rw [subW_eq hfle (h.mem ▸ h.sum_lt), h.mem]
        rw [addW_eq (by omega)]
        omega
  · intro it hit
    rcases List.mem_map.mp hit with ⟨it0, hit0, hrep⟩
    by_cases hx : it0.1 = k
    · rw [if_pos hx] at hrep
      exact hrep ▸ h1
    · rw [if_neg hx] at hrep
      exact hrep ▸ h.costs it0 hit0
  · show (c.buf.map (fun it => if it.1 = k then (k, v) else it)).length < wsize
    rw [List.length_map]
    exact h.len_lt
  · show memSum a (c.buf.map (fun it => if it.1 = k then (k, v) else it)) < wsize
    omega

/-! ### Field-preservation lemmas for the public operations -/

theorem Pop_fields {K V : Type} [DecidableEq K] (a : Acct K V) (c : Cache K V) :
    (Cache.Pop a c).hits = c.hits ∧ (Cache.Pop a c).misses = c.misses ∧
    (Cache.Pop a c).maxsize = c.maxsize ∧ (Cache.Pop a c).maxmem = c.maxmem := by
  unfold Cache.Pop
  cases c.buf.getLast? <;> exact ⟨rfl, rfl, rfl, rfl⟩

theorem Push_fields {K V : Type} [DecidableEq K] (a : Acct K V) (c : Cache K V)
    (k : K) (v : V) :
    (Cache.Push a c k v).hits = c.hits ∧
    (Cache.Push a c k v).misses = c.misses ∧
    (Cache.Push a c k v).maxsize = c.maxsize ∧
    (Cache.Push a c k v).maxmem = c.maxmem := by
  unfold Cache.Push
  split
  · exact Pop_fields a (Cache.PushRaw a c k v)
  · exact ⟨rfl, rfl, rfl, rfl⟩

theorem Update_fields {K V : Type} [DecidableEq K] (a : Acct K V)
    (c : Cache K V) (k : K) (v : V) :
    (Cache.Update a c k v).table = c.table ∧
    (Cache.Update a c k v).hits = c.hits ∧
    (Cache.Update a c k v).misses = c.misses ∧
    (Cache.Update a c k v).maxsize = c.maxsize ∧
    (Cache.Update a c k v).maxmem = c.maxmem ∧
    (Cache.Update a c k v).currsize = c.currsize := by
  unfold Cache.Update
  cases hf : c.findEntry k with
  | none => exact ⟨rfl, rfl, rfl, rfl, rfl, rfl⟩
  | some e =>
      obtain ⟨ht, hh, hm, hms, hcs, hmm, _⟩ := Touch_fields
        ({ c with buf := c.buf.map (fun it => if it.1 = k then (k, v) else it),
                  currmem := Cache.UpdMem a c e.2 v } : Cache K V) k
      exact ⟨ht, hh, hm, hms, hmm, hcs⟩

theorem Set_fields {K V : Type} [DecidableEq K] (a : Acct K V) (c : Cache K V)
    (k : K) (v : V) :
    (Cache.Set a c k v).hits = c.hits ∧
    (Cache.Set a c k v).misses = c.misses ∧
    (Cache.Set a c k v).maxsize = c.maxsize ∧
    (Cache.Set a c k v).maxmem = c.maxmem := by
  unfold Cache.Set
  split
  · obtain ⟨_, hh, hm, hms, hmm, _⟩ := Update_fields a c k v
    exact ⟨hh, hm, hms, hmm⟩
  · exact Push_fields a c k v

theorem Set_inv {K V : Type} [DecidableEq K] {a : Acct K V} {c : Cache K V}
    {k : K} {v : V} (h : Inv a c)
    (h1 : a.rawItemMem (k, v) < wsize) (h2 : c.buf.length + 1 < wsize)
    (h3 : memSum a c.buf + a.CalcItemMem (k, v) < wsize) :
    Inv a (Cache.Set a c k v) := by
  unfold Cache.Set
  split
  case isTrue hmem => exact Update_inv h (h.perm.mem_iff.mp hmem) h1 h3
  case isFalse hmem =>
      exact Push_inv h (fun hk => hmem (h.perm.mem_iff.mpr hk)) h1 h2 h3

theorem Add_inv {K V : Type} [DecidableEq K] {a : Acct K V} {c : Cache K V}
    {k : K} {v : V} (h : Inv a c)
    (h1 : a.rawItemMem (k, v) < wsize) (h2 : c.buf.length + 1 < wsize)
    (h3 : memSum a c.buf + a.CalcItemMem (k, v) < wsize) :
    Inv a (Cache.Add a c k v).1 := by
  unfold Cache.Add
  split
  case isTrue hmem => exact Touch_inv h k
  case isFalse hmem =>
      exact Push_inv h (fun hk => hmem (h.perm.mem_iff.mpr hk)) h1 h2 h3

theorem Replace_inv {K V : Type} [DecidableEq K] {a : Acct K V} {c : Cache K V}
    {k : K} {v : V} (h : Inv a c)
    (h1 : a.rawItemMem (k, v) < wsize)
    (h3 : memSum a c.buf + a.CalcItemMem (k, v) < wsize) :
    Inv a (Cache.Replace a c k v).1 := by
  unfold Cache.Replace
  split
  case isTrue hmem => exact Update_inv h (h.perm.mem_iff.mp hmem) h1 h3
  case isFalse hmem => exact h

theorem Get_inv {K V : Type} [DecidableEq K] {a : Acct K V} {c : Cache K V}
    (h : Inv a c) (k : K) : Inv a (Cache.Get c k).1 := by
  unfold Cache.Get
  split
  · have hti := Touch_inv h k
    exact ⟨hti.perm, hti.nodup, hti.size, hti.mem, hti.costs, hti.len_lt,
      hti.sum_lt⟩
  · exact ⟨h.perm, h.nodup, h.size, h.mem, h.costs, h.len_lt, h.sum_lt⟩

theorem Delete_inv {K V : Type} [DecidableEq K] {a : Acct K V} {c : Cache K V}
    (h : Inv a c) (k : K) : Inv a (Cache.Delete a c k).1 := by
  unfold Cache.Delete
  split
  case isFalse hmem => exact h
  case isTrue hmem =>
      have hkk : k ∈ c.buf.map Prod.fst := h.perm.mem_iff.mp hmem
      obtain ⟨e, hf, hek⟩ := find?_key_of_mem hkk
      have hperm : c.buf.Perm
          (e :: c.buf.eraseP (fun it => decide (it.1 = k))) :=
        perm_cons_eraseP _ hf
      have hlen : c.buf.length
          = (c.buf.eraseP (fun it => decide (it.1 = k))).length + 1 := by
        simpa using hperm.length_eq
      have hmemsum : memSum a c.buf
          = a.CalcItemMem e
            + memSum a (c.buf.eraseP (fun it => decide (it.1 = k))) := by
        rw [memSum_perm a hperm, memSum_cons]
      have hdm : Cache.DeleteMem a c k = a.CalcItemMem e := by
        unfold Cache.DeleteMem
        have hf' : c.findEntry k = some e := hf
        rw [hf']
      have hsub : (c.buf.eraseP (fun it => decide (it.1 = k))).Sublist c.buf :=
        List.eraseP_sublist c.buf
      refine ⟨?_, ?_, ?_, ?_, ?_, ?_, ?_⟩
      · show (c.table.erase k).Perm
          ((c.buf.eraseP (fun it => decide (it.1 = k))).map Prod.fst)
        rw [map_fst_eraseP, ← erase_eq_erasePd]
        have h1 : (c.table.erase k).Perm ((c.buf.map Prod.fst).erase k) := by
          simpa [Cache.keys] using h.perm.erase k
        exact h1
      · show ((c.buf.eraseP (fun it => decide (it.1 = k))).map Prod.fst).Nodup
        exact h.nodup.sublist (hsub.map Prod.fst)
      · show subW c.currsize 1
          = (c.buf.eraseP (fun it => decide (it.1 = k))).length
        rw [h.size, hlen, subW_eq (by omega) (by rw [← hlen]; exact h.len_lt)]
        omega
      · show subW c.currmem (Cache.DeleteMem a c k)
          = memSum a (c.buf.eraseP (fun it => decide (it.1 = k)))
        rw [hdm, h.mem, subW_eq (by rw [hmemsum]; omega) h.sum_lt, hmemsum]
        omega
      · intro it hit
        exact h.costs it (hsub.mem hit)
      · exact lt_of_le_of_lt (hsub.length_le) h.len_lt
      · exact lt_of_le_of_lt (memSum_sublist_le a hsub) h.sum_lt

/-! ### The limit setters -/

theorem foldl_addW_memSum {K V : Type} (a : Acct K V) :
    ∀ (l : List (K × V)) (acc : Nat), acc + memSum a l < wsize →
      l.foldl (fun acc it => addW acc (a.CalcItemMem it)) acc
        = acc + memSum a l := by
  intro l
  induction l with
  | nil => intro acc h; simp [memSum_nil]
  | cons it xs ih =>
      intro acc h
      rw [memSum_cons] at h
      simp only [List.foldl_cons]
      rw [show addW acc (a.CalcItemMem it) = acc + a.CalcItemMem it from
            addW_eq (by omega)]
      rw [ih (acc + a.CalcItemMem it) (by omega), memSum_cons]
      omega

theorem foldl_eraseKey_perm {K V : Type} [DecidableEq K] :
    ∀ (ev : List (K × V)) (t A : List K),
      t.Perm (A ++ ev.map Prod.fst) → (A ++ ev.map Prod.fst).Nodup →
      (ev.foldl (fun t it => t.erase it.1) t).Perm A := by
  intro ev
  induction ev with
  | nil => intro t A hp _; simpa using hp
  | cons e rest ih =>
      intro t A hp hnd
      rw [List.map_cons] at hp hnd
      simp only [List.foldl_cons]
      have he : e.1 ∉ A := by
        rcases List.nodup_append.mp hnd with ⟨_, _, hdisj⟩
        intro hmem
        exact hdisj hmem (by simp)
      apply ih (t.erase e.1) A
      · have h1 : (t.erase e.1).Perm
            ((A ++ e.1 :: rest.map Prod.fst).erase e.1) := hp.erase e.1
        rwa [List.erase_append_right _ he, List.erase_cons_head] at h1
      · refine List.Nodup.sublist ?_ hnd
        exact List.Sublist.append_left (List.sublist_cons_self _ _) A

theorem take_min_self {α : Type} (l : List α) (n : Nat) :
    l.take (min n l.length) = l.take n := by
  by_cases hn : n ≤ l.length
  · rw [min_eq_left hn]
  · rw [min_eq_right (by omega), List.take_length,
        List.take_of_length_le (by omega)]

theorem Maxsize_spec {K V : Type} [DecidableEq K] {a : Acct K V}
    {c : Cache K V} (h : Inv a c) (items : Nat) :
    Inv a (Cache.Maxsize a c items)
    ∧ (items = nval → Cache.Maxsize a c items = { c with maxsize := items })
    ∧ (items ≠ nval →
        (Cache.Maxsize a c items).buf = c.buf.take items
        ∧ (Cache.Maxsize a c items).maxsize = items
        ∧ (Cache.Maxsize a c items).maxmem = c.maxmem
        ∧ (Cache.Maxsize a c items).hits = c.hits
        ∧ (Cache.Maxsize a c items).misses = c.misses
        ∧ (Cache.Maxsize a c items).currsize = min items c.currsize) := by
  unfold Cache.Maxsize
  by_cases hnv : items = nval
  · rw [if_pos hnv]
    refine ⟨⟨h.perm, h.nodup, h.size, h.mem, h.costs, h.len_lt, h.sum_lt⟩,
      fun _ => by rw [hnv], fun hne => absurd hnv hne⟩
  · rw [if_neg hnv]
    have hsplit : c.buf.take (min items c.buf.length)
        ++ c.buf.drop (min items c.buf.length) = c.buf :=
      List.take_append_drop _ _
    have hsl := h.sum_lt
    have hmemsplit : memSum a c.buf
        = memSum a (c.buf.take (min items c.buf.length))
          + memSum a (c.buf.drop (min items c.buf.length)) := by
      conv_lhs => rw [← hsplit]
      rw [memSum_append]
    have hfold : (c.buf.drop (min items c.buf.length)).foldl
        (fun acc it => addW acc (a.CalcItemMem it)) 0
        = memSum a (c.buf.drop (min items c.buf.length)) := by
      rw [foldl_addW_memSum a _ 0 (by omega)]
      omega
    have htake : c.buf.take (min items c.buf.length) = c.buf.take items :=
      take_min_self c.buf items
    have htakesub : (c.buf.take (min items c.buf.length)).Sublist c.buf :=
      List.take_sublist _ _
    refine ⟨?_, fun hv => absurd hv hnv, fun _ => ?_⟩
    · refine ⟨?_, ?_, ?_, ?_, ?_, ?_, ?_⟩
      · show ((c.buf.drop (min items c.buf.length)).foldl
            (fun t it => t.erase it.1) c.table).Perm
          ((c.buf.take (min items c.buf.length)).map Prod.fst)
        apply foldl_eraseKey_perm
        · rw [← List.map_append, hsplit]
          exact h.perm
        · rw [← List.map_append, hsplit]
          exact h.nodup
      · show ((c.buf.take (min items c.buf.length)).map Prod.fst).Nodup
        exact h.nodup.sublist (htakesub.map Prod.fst)
      · show (if items < c.currsize then items else c.currsize)
          = (c.buf.take (min items c.buf.length)).length
        rw [List.length_take, h.size]
        split <;> omega
      · show subW c.currmem ((c.buf.drop (min items c.buf.length)).foldl
            (fun acc it => addW acc (a.CalcItemMem it)) 0)
          = memSum a (c.buf.take (min items c.buf.length))
        rw [hfold, h.mem, subW_eq (by omega) h.sum_lt]
        omega
      · intro it hit
        exact h.costs it (htakesub.mem hit)
      · exact lt_of_le_of_lt htakesub.length_le h.len_lt
      · exact lt_of_le_of_lt (memSum_sublist_le a htakesub) h.sum_lt
    · refine ⟨htake, rfl, rfl, rfl, rfl, ?_⟩
      show (if items < c.currsize then items else c.currsize)
        = min items c.currsize
      split <;> omega

theorem dropLast_eq_take' {α : Type} (l : List α) :
    l.dropLast = l.take (l.length - 1) := by
  induction l with
  | nil => rfl
  | cons x xs ih =>
      cases xs with
      | nil => rfl
      | cons y ys =>
          simp only [List.dropLast_cons₂, List.length_cons]
          rw [ih]
          simp

theorem Pop_buf_dropLast {K V : Type} [DecidableEq K] (a : Acct K V)
    {c : Cache K V} (hne : c.buf ≠ []) :
    (Cache.Pop a c).buf = c.buf.dropLast := by
  unfold Cache.Pop
  cases hg : c.buf.getLast? with
  | none => exact absurd (List.getLast?_eq_none_iff.mp hg) hne
  | some e => rfl

theorem MaxmemLoop_spec {K V : Type} [DecidableEq K] (a : Acct K V) (b : Nat) :
    ∀ n (c : Cache K V), c.buf.length ≤ n → Inv a c →
      Inv a (Cache.MaxmemLoop a b c)
      ∧ (Cache.MaxmemLoop a b c).currmem ≤ b
      ∧ (∃ m, (Cache.MaxmemLoop a b c).buf = c.buf.take m)
      ∧ (Cache.MaxmemLoop a b c).hits = c.hits
      ∧ (Cache.MaxmemLoop a b c).misses = c.misses
      ∧ (Cache.MaxmemLoop a b c).maxsize = c.maxsize
      ∧ (Cache.MaxmemLoop a b c).maxmem = c.maxmem := by
  intro n
  induction n with
  | zero =>
      intro c hn h
      have hnil : c.buf = [] := List.length_eq_zero.mp (by omega)
      rw [Cache.MaxmemLoop]
      rw [dif_neg (by rw [hnil]; simp)]
      refine ⟨h, ?_, ⟨0, by rw [hnil]; rfl⟩, rfl, rfl, rfl, rfl⟩
      rw [h.mem, hnil, memSum_nil]
      omega
  | succ n ih =>
      intro c hn h
      rw [Cache.MaxmemLoop]
      by_cases hcond : b < c.currmem ∧ 0 < c.buf.length
      · rw [dif_pos hcond]
        have hne : c.buf ≠ [] := List.ne_nil_of_length_pos hcond.2
        have hpopbuf := Pop_buf_dropLast a hne
        have hlen : (Cache.Pop a c).buf.length ≤ n := by
          rw [hpopbuf]
          have := List.length_dropLast c.buf
          omega
        obtain ⟨h1, h2, ⟨m, hm⟩, h4, h5, h6, h7⟩ := ih (Cache.Pop a c) hlen
          (Pop_inv h)
        obtain ⟨hp1, hp2, hp3, hp4⟩ := Pop_fields a c
        refine ⟨h1, h2, ⟨min m (c.buf.length - 1), ?_⟩,
          h4.trans hp1, h5.trans hp2, h6.trans hp3, h7.trans hp4⟩
        rw [hm, hpopbuf, dropLast_eq_take' c.buf, List.take_take]
      · rw [dif_neg hcond]
        refine ⟨h, ?_, ⟨c.buf.length, (List.take_length _).symm⟩,
          rfl, rfl, rfl, rfl⟩
        by_cases hb : b < c.currmem
        · have hnil : c.buf = [] := by
            rcases Nat.eq_zero_or_pos c.buf.length with h0 | hpos
            · exact List.length_eq_zero.mp h0
            · exact absurd ⟨hb, hpos⟩ hcond
          rw [h.mem, hnil, memSum_nil]
          omega
        · omega

/-! ### Remaining field lemmas -/

theorem Get_fields {K V : Type} [DecidableEq K] (c : Cache K V) (k : K) :
    (Cache.Get c k).1.maxsize = c.maxsize ∧
    (Cache.Get c k).1.maxmem = c.maxmem ∧
    (Cache.Get c k).1.currsize = c.currsize ∧
    (Cache.Get c k).1.currmem = c.currmem ∧
    (Cache.Get c k).1.table = c.table ∧
    (Cache.Get c k).1.buf.Perm c.buf := by
  unfold Cache.Get
  split
  · obtain ⟨ht, _, _, hms, hcs, hmm, hcm⟩ := Touch_fields c k
    exact ⟨hms, hmm, hcs, hcm, ht, Touch_buf_perm c k⟩
  · exact ⟨rfl, rfl, rfl, rfl, rfl, List.Perm.refl _⟩

theorem Get_stats {K V : Type} [DecidableEq K] (c : Cache K V) (k : K) :
    (k ∈ c.table →
      (Cache.Get c k).1.hits = addW c.hits 1 ∧
      (Cache.Get c k).1.misses = c.misses) ∧
    (k ∉ c.table →
      (Cache.Get c k).1.misses = addW c.misses 1 ∧
      (Cache.Get c k).1.hits = c.hits) := by
  unfold Cache.Get
  obtain ⟨_, hh, hm, _, _, _, _⟩ := Touch_fields c k
  split
  case isTrue hmem =>
      refine ⟨fun _ => ⟨?_, ?_⟩, fun hn => absurd hmem hn⟩
      · show addW (Cache.Touch c k).hits 1 = addW c.hits 1
        rw [hh]
      · exact hm
  case isFalse hmem =>
      exact ⟨fun hmem' => absurd hmem' hmem, fun _ => ⟨rfl, rfl⟩⟩

theorem Add_fields {K V : Type} [DecidableEq K] (a : Acct K V) (c : Cache K V)
    (k : K) (v : V) :
    (Cache.Add a c k v).1.hits = c.hits ∧
    (Cache.Add a c k v).1.misses = c.misses ∧
    (Cache.Add a c k v).1.maxsize = c.maxsize ∧
    (Cache.Add a c k v).1.maxmem = c.maxmem := by
  unfold Cache.Add
  obtain ⟨_, hh, hm, hms, _, hmm, _⟩ := Touch_fields c k
  split
  · exact ⟨hh, hm, hms, hmm⟩
  · exact Push_fields a c k v

theorem Replace_fields {K V : Type} [DecidableEq K] (a : Acct K V)
    (c : Cache K V) (k : K) (v : V) :
    (Cache.Replace a c k v).1.hits = c.hits ∧
    (Cache.Replace a c k v).1.misses = c.misses ∧
    (Cache.Replace a c k v).1.maxsize = c.maxsize ∧
    (Cache.Replace a c k v).1.maxmem = c.maxmem := by
  unfold Cache.Replace
  obtain ⟨_, hh, hm, hms, hmm, _⟩ := Update_fields a c k v
  split
  · exact ⟨hh, hm, hms, hmm⟩
  · exact ⟨rfl, rfl, rfl, rfl⟩

theorem Delete_fields {K V : Type} [DecidableEq K] (a : Acct K V)
    (c : Cache K V) (k : K) :
    (Cache.Delete a c k).1.hits = c.hits ∧
    (Cache.Delete a c k).1.misses = c.misses ∧
    (Cache.Delete a c k).1.maxsize = c.maxsize ∧
    (Cache.Delete a c k).1.maxmem = c.maxmem := by
  unfold Cache.Delete
  split <;> exact ⟨rfl, rfl, rfl, rfl⟩

theorem Update_buf_length {K V : Type} [DecidableEq K] (a : Acct K V)
    (c : Cache K V) (k : K) (v : V) :
    (Cache.Update a c k v).buf.length = c.buf.length := by
  unfold Cache.Update
  cases hf : c.findEntry k with
  | none => rfl
  | some e =>
      rw [(Touch_buf_perm _ k).length_eq]
      exact List.length_map _ _

theorem Update_currmem_noval {K V : Type} [DecidableEq K] {a : Acct K V}
    (hv : a.valueMem = none) (c : Cache K V) (k : K) (v : V) :
    (Cache.Update a c k v).currmem = c.currmem := by
  unfold Cache.Update
  cases hf : c.findEntry k with
  | none => rfl
  | some e =>
      obtain ⟨_, _, _, _, _, _, hcm⟩ := Touch_fields
        ({ c with buf := c.buf.map (fun it => if it.1 = k then (k, v) else it),
                  currmem := Cache.UpdMem a c e.2 v } : Cache K V) k
      rw [hcm]
      show Cache.UpdMem a c e.2 v = c.currmem
      unfold Cache.UpdMem
      rw [hv]

/-! ### Hint-free accounting -/

theorem plain_raw {K V : Type} {a : Acct K V} (hp : a.plain) (it : K × V) :
    a.rawItemMem it = a.kItemMem := by
  unfold Acct.rawItemMem
  rw [hp.1, hp.2, hintVal_none, hintVal_none]
  omega

theorem plain_cost {K V : Type} {a : Acct K V} (hp : a.plain)
    (hkw : a.kItemMem < wsize) (it : K × V) :
    a.CalcItemMem it = a.kItemMem := by
  unfold Acct.CalcItemMem
  rw [plain_raw hp]
  exact Nat.mod_eq_of_lt hkw

theorem plain_memSum {K V : Type} {a : Acct K V} (hp : a.plain)
    (hkw : a.kItemMem < wsize) :
    ∀ buf : List (K × V), memSum a buf = buf.length * a.kItemMem := by
  intro buf
  induction buf with
  | nil => simp [memSum_nil]
  | cons it xs ih =>
      rw [memSum_cons, plain_cost hp hkw, ih]
      simp [Nat.succ_mul]
      omega

theorem nval_succ : nval + 1 = wsize := by
  have := wsize_pos
  unfold nval
  omega

/-! ### Preservation of `PlainGood` by every public operation -/

theorem plain_Touch_good {K V : Type} [DecidableEq K] {a : Acct K V}
    {c : Cache K V} (h : PlainGood a c) (k : K) :
    PlainGood a (Cache.Touch c k) := by
  obtain ⟨hinv, hcs, hcm, hms, hmw⟩ := h
  obtain ⟨_, _, _, hms', hcs', hmm', hcm'⟩ := Touch_fields c k
  exact ⟨Touch_inv hinv k, by rw [hcs', hms']; exact hcs,
    by rw [hcm', hmm']; exact hcm, by rw [hms']; exact hms,
    by rw [hmm']; exact hmw⟩

theorem plain_Push_good {K V : Type} [DecidableEq K] {a : Acct K V}
    (hp : a.plain) {c : Cache K V} (h : PlainGood a c) (k : K) (v : V)
    (hk : k ∉ c.buf.map Prod.fst) : PlainGood a (Cache.Push a c k v) := by
  obtain ⟨hinv, hcs, hcm, hms, hmw⟩ := h
  have hnw := nval_succ
  have hkw : a.kItemMem < wsize := by omega
  have hsz := hinv.size
  have hmem := hinv.mem
  have hslt := hinv.sum_lt
  have hllt := hinv.len_lt
  have hcost : a.CalcItemMem (k, v) = a.kItemMem := plain_cost hp hkw (k, v)
  have hraw : a.rawItemMem (k, v) < wsize := by rw [plain_raw hp]; exact hkw
  have hroom2 : c.buf.length + 1 < wsize := by omega
  have hroom3 : memSum a c.buf + a.CalcItemMem (k, v) < wsize := by
    rw [hcost]; omega
  have hinv' := Push_inv hinv hk hraw hroom2 hroom3
  obtain ⟨_, _, hms', hmm'⟩ := Push_fields a c k v
  have hone : addW c.currsize 1 = c.currsize + 1 := addW_eq (by omega)
  have htwo : addW c.currmem (a.CalcItemMem (k, v))
      = c.currmem + a.kItemMem := by
    rw [hcost]; exact addW_eq (by omega)
  have hbuf := Push_buf a c k v
  rw [hone, htwo] at hbuf
  have hlen' : (Cache.Push a c k v).buf.length ≤ c.buf.length + 1 ∧
      (c.maxsize < c.currsize + 1 ∨ c.maxmem < c.currmem + a.kItemMem →
        (Cache.Push a c k v).buf.length = c.buf.length) ∧
      (¬(c.maxsize < c.currsize + 1 ∨ c.maxmem < c.currmem + a.kItemMem) →
        (Cache.Push a c k v).buf.length = c.buf.length + 1) := by
    by_cases hover : c.maxsize < c.currsize + 1 ∨
        c.maxmem < c.currmem + a.kItemMem
    · rw [if_pos hover] at hbuf
      rw [hbuf]
      refine ⟨?_, fun _ => ?_, fun hn => absurd hover hn⟩ <;> simp
    · rw [if_neg hover] at hbuf
      rw [hbuf]
      exact ⟨by simp, fun hv => absurd hv hover, fun _ => by simp⟩
  have hmm2 : memSum a (Cache.Push a c k v).buf
      = (Cache.Push a c k v).buf.length * a.kItemMem := plain_memSum hp hkw _
  have hmc : memSum a c.buf = c.buf.length * a.kItemMem := plain_memSum hp hkw _
  refine ⟨hinv', ?_, ?_, by rw [hms']; exact hms, by rw [hmm']; exact hmw⟩
  · rw [hinv'.size, hms']
    by_cases hover : c.maxsize < c.currsize + 1 ∨
        c.maxmem < c.currmem + a.kItemMem
    · rw [hlen'.2.1 hover]
      omega
    · rw [hlen'.2.2 hover]
      omega
  · rw [hinv'.mem, hmm', hmm2]
    by_cases hover : c.maxsize < c.currsize + 1 ∨
        c.maxmem < c.currmem + a.kItemMem
    · rw [hlen'.2.1 hover]
      omega
    · rw [hlen'.2.2 hover]
      have hnlt : ¬ c.maxmem < c.currmem + a.kItemMem :=
        fun hlt => hover (Or.inr hlt)
      have hmul : (c.buf.length + 1) * a.kItemMem
          = c.buf.length * a.kItemMem + a.kItemMem := by ring
      omega

theorem plain_Update_good {K V : Type} [DecidableEq K] {a : Acct K V}
    (hp : a.plain) {c : Cache K V} (h : PlainGood a c) (k : K) (v : V) :
    PlainGood a (Cache.Update a c k v) := by
  obtain ⟨hinv, hcs, hcm, hms, hmw⟩ := h
  have hnw := nval_succ
  have hkw : a.kItemMem < wsize := by omega
  cases hf : c.findEntry k with
  | none =>
      have : Cache.Update a c k v = c := by
        unfold Cache.Update
        rw [hf]
      rw [this]
      exact ⟨hinv, hcs, hcm, hms, hmw⟩
  | some e =>
      have he_mem : e ∈ c.buf := List.mem_of_find?_eq_some hf
      have hek : e.1 = k := by
        have hf2 : c.buf.find? (fun it => decide (it.1 = k)) = some e := hf
        simpa using List.find?_some hf2
      have hkk : k ∈ c.buf.map Prod.fst := hek ▸ List.mem_map_of_mem _ he_mem
      have hraw : a.rawItemMem (k, v) < wsize := by rw [plain_raw hp]; exact hkw
      have hroom3 : memSum a c.buf + a.CalcItemMem (k, v) < wsize := by
        rw [plain_cost hp hkw]
        have := hinv.mem
        omega
      have hinv' := Update_inv hinv hkk hraw hroom3
      obtain ⟨_, _, _, hms', hmm', hcs'⟩ := Update_fields a c k v
      exact ⟨hinv', by rw [hcs', hms']; exact hcs,
        by rw [Update_currmem_noval hp.2, hmm']; exact hcm,
        by rw [hms']; exact hms, by rw [hmm']; exact hmw⟩

theorem plain_Set_good {K V : Type} [DecidableEq K] {a : Acct K V}
    (hp : a.plain) {c : Cache K V} (h : PlainGood a c) (k : K) (v : V) :
    PlainGood a (Cache.Set a c k v) := by
  unfold Cache.Set
  split
  case isTrue hmem => exact plain_Update_good hp h k v
  case isFalse hmem =>
      exact plain_Push_good hp h k v
        (fun hk => hmem (h.1.perm.mem_iff.mpr hk))

theorem plain_Add_good {K V : Type} [DecidableEq K] {a : Acct K V}
    (hp : a.plain) {c : Cache K V} (h : PlainGood a c) (k : K) (v : V) :
    PlainGood a (Cache.Add a c k v).1 := by
  unfold Cache.Add
  split
  case isTrue hmem => exact plain_Touch_good h k
  case isFalse hmem =>
      exact plain_Push_good hp h k v
        (fun hk => hmem (h.1.perm.mem_iff.mpr hk))

theorem plain_Replace_good {K V : Type} [DecidableEq K] {a : Acct K V}
    (hp : a.plain) {c : Cache K V} (h : PlainGood a c) (k : K) (v : V) :
    PlainGood a (Cache.Replace a c k v).1 := by
  unfold Cache.Replace
  split
  case isTrue hmem => exact plain_Update_good hp h k v
  case isFalse hmem => exact h

theorem plain_Get_good {K V : Type} [DecidableEq K] {a : Acct K V}
    {c : Cache K V} (h : PlainGood a c) (k : K) :
    PlainGood a (Cache.Get c k).1 := by
  obtain ⟨hinv, hcs, hcm, hms, hmw⟩ := h
  obtain ⟨hms', hmm', hcs', hcm', _, _⟩ := Get_fields c k
  exact ⟨Get_inv hinv k, by rw [hcs', hms']; exact hcs,
    by rw [hcm', hmm']; exact hcm, by rw [hms']; exact hms,
    by rw [hmm']; exact hmw⟩

theorem plain_Delete_good {K V : Type} [DecidableEq K] {a : Acct K V}
    {c : Cache K V} (h : PlainGood a c) (k : K) :
    PlainGood a (Cache.Delete a c k).1 := by
  obtain ⟨hinv, hcs, hcm, hms, hmw⟩ := h
  have hinv' := Delete_inv hinv k
  obtain ⟨_, _, hms', hmm'⟩ := Delete_fields a c k
  have hlen' : (Cache.Delete a c k).1.buf.length ≤ c.buf.length := by
    unfold Cache.Delete
    split
    · exact (List.eraseP_sublist c.buf).length_le
    · exact le_rfl
  have hmem' : memSum a (Cache.Delete a c k).1.buf ≤ memSum a c.buf := by
    unfold Cache.Delete
    split
    · exact memSum_sublist_le a (List.eraseP_sublist c.buf)
    · exact le_rfl
  refine ⟨hinv', ?_, ?_, by rw [hms']; exact hms, by rw [hmm']; exact hmw⟩
  · rw [hinv'.size, hms']
    have := hinv.size
    omega
  · rw [hinv'.mem, hmm']
    have := hinv.mem
    omega

theorem plain_Flush_good {K V : Type} [DecidableEq K] {a : Acct K V}
    {c : Cache K V} (h : PlainGood a c) : PlainGood a (Cache.Flush c) := by
  obtain ⟨_, _, _, hms, hmw⟩ := h
  exact ⟨Flush_inv c, by simp [Cache.Flush], by simp [Cache.Flush],
    by simpa [Cache.Flush] using hms, by simpa [Cache.Flush] using hmw⟩

theorem plain_Maxsize_good {K V : Type} [DecidableEq K] {a : Acct K V}
    {c : Cache K V} (h : PlainGood a c) {n : Nat} (hn : n < nval) :
    PlainGood a (Cache.Maxsize a c n) := by
  obtain ⟨hinv, hcs, hcm, hms, hmw⟩ := h
  obtain ⟨hinv', _, hspec⟩ := Maxsize_spec hinv n
  obtain ⟨hbuf', hms', hmm', _, _, hcs'⟩ := hspec (by omega)
  have hmem := hinv.mem
  have hmem' := hinv'.mem
  refine ⟨hinv', ?_, ?_, by rw [hms']; exact hn, by rw [hmm']; exact hmw⟩
  · rw [hcs', hms']
    omega
  · rw [hmm', hmem', hbuf']
    have hle : memSum a (c.buf.take n) ≤ memSum a c.buf :=
      memSum_sublist_le a (List.take_sublist n c.buf)
    omega

theorem plain_Maxmem_good {K V : Type} [DecidableEq K] {a : Acct K V}
    {c : Cache K V} (h : PlainGood a c) {b : Nat}
    (hb : b + a.kItemMem < wsize) : PlainGood a (Cache.Maxmem a c b) := by
  obtain ⟨hinv, hcs, hcm, hms, hmw⟩ := h
  have hnw := nval_succ
  obtain ⟨hinv', hle, ⟨m, hm⟩, _, _, hms', hmm'⟩ :=
    MaxmemLoop_spec a b c.buf.length c le_rfl hinv
  have hinvM : Inv a (Cache.Maxmem a c b) := by
    unfold Cache.Maxmem
    exact ⟨hinv'.perm, hinv'.nodup, hinv'.size, hinv'.mem, hinv'.costs,
      hinv'.len_lt, hinv'.sum_lt⟩
  have hszM : (Cache.Maxmem a c b).currsize
      = (Cache.MaxmemLoop a b c).currsize := rfl
  have hcmM : (Cache.Maxmem a c b).currmem
      = (Cache.MaxmemLoop a b c).currmem := rfl
  have hmsM : (Cache.Maxmem a c b).maxsize = (Cache.MaxmemLoop a b c).maxsize :=
    rfl
  have hmmM : (Cache.Maxmem a c b).maxmem = b := rfl
  refine ⟨hinvM, ?_, ?_, ?_, ?_⟩
  · rw [hszM, hmsM, hms', hinv'.size, hm]
    have hlen : (c.buf.take m).length ≤ c.buf.length := by
      exact (List.take_sublist m c.buf).length_le
    have := hinv.size
    omega
  · rw [hcmM, hmmM]
    exact hle
  · rw [hmsM, hms']
    exact hms
  · rw [hmmM]
    exact hb

theorem foldl_Set_pres {K V : Type} [DecidableEq K] (a : Acct K V)
    (P : Cache K V → Prop)
    (hstep : ∀ c k v, P c → P (Cache.Set a c k v)) :
    ∀ (items : List (K × V)) (c : Cache K V), P c →
      P (items.foldl (fun st it => Cache.Set a st it.1 it.2) c) := by
  intro items
  induction items with
  | nil => intro c h; exact h
  | cons it rest ih =>
      intro c h
      exact ih _ (hstep c it.1 it.2 h)

theorem plain_Load_good {K V : Type} [DecidableEq K] {a : Acct K V}
    (hp : a.plain) (sp : SerdePair K V) {c c' : Cache K V}
    (h : PlainGood a c) {bytes : List Nat}
    (hload : Cache.Load sp a c bytes = some c') : PlainGood a c' := by
  unfold Cache.Load at hload
  cases hpe : parseEntries sp bytes with
  | none => rw [hpe] at hload; simp at hload
  | some items =>
      rw [hpe] at hload
      have hload' : items.foldl (fun st it => Cache.Set a st it.1 it.2)
          (Cache.Flush c) = c' := by
        simpa using hload
      rw [← hload']
      exact foldl_Set_pres a (PlainGood a)
        (fun c k v hg => plain_Set_good hp hg k v) items _
        (plain_Flush_good h)

theorem PlainGood_apply {K V : Type} [DecidableEq K] {a : Acct K V}
    (hp : a.plain) (sp : SerdePair K V) {c c' : Cache K V} {op : Op K V}
    (hbs : ∀ n, op = Op.maxsize n → n < nval)
    (hbm : ∀ b, op = Op.maxmem b → b + a.kItemMem < wsize)
    (h : PlainGood a c) (happ : applyOp sp a c op = some c') :
    PlainGood a c' := by
  cases op with
  | set k v =>
      simp only [applyOp, Option.some.injEq] at happ
      rw [← happ]; exact plain_Set_good hp h k v
  | add k v =>
      simp only [applyOp, Option.some.injEq] at happ
      rw [← happ]; exact plain_Add_good hp h k v
  | replace k v =>
      simp only [applyOp, Option.some.injEq] at happ
      rw [← happ]; exact plain_Replace_good hp h k v
  | get k =>
      simp only [applyOp, Option.some.injEq] at happ
      rw [← happ]; exact plain_Get_good h k
  | del k =>
      simp only [applyOp, Option.some.injEq] at happ
      rw [← happ]; exact plain_Delete_good h k
  | flush =>
      simp only [applyOp, Option.some.injEq] at happ
      rw [← happ]; exact plain_Flush_good h
  | maxsize n =>
      simp only [applyOp, Option.some.injEq] at happ
      rw [← happ]; exact plain_Maxsize_good h (hbs n rfl)
  | maxmem b =>
      simp only [applyOp, Option.some.injEq] at happ
      rw [← happ]; exact plain_Maxmem_good h (hbm b rfl)
  | load bytes =>
      exact plain_Load_good hp sp h happ

theorem PlainGood_runOps {K V : Type} [DecidableEq K] {a : Acct K V}
    (hp : a.plain) (sp : SerdePair K V) :
    ∀ (ops : List (Op K V)) (c c' : Cache K V), BoundedLimits a ops →
      PlainGood a c → runOps sp a c ops = some c' → PlainGood a c' := by
  intro ops
  induction ops with
  | nil =>
      intro c c' _ h hrun
      unfold runOps at hrun
      cases hrun
      exact h
  | cons op rest ih =>
      intro c c' hbl h hrun
      unfold runOps at hrun
      cases happ : applyOp sp a c op with
      | none => rw [happ] at hrun; simp at hrun
      | some c1 =>
          rw [happ] at hrun
          have hb := hbl op (List.mem_cons_self _ _)
          have h1 := PlainGood_apply hp sp hb.1 hb.2 h happ
          exact ih c1 c' (fun o ho => hbl o (List.mem_cons_of_mem _ ho)) h1 hrun

/-! ### `Inv` preservation through `applyOp` with arithmetic room -/

theorem Inv_set_maxmem {K V : Type} [DecidableEq K] {a : Acct K V}
    {c : Cache K V} (h : Inv a c) (b : Nat) :
    Inv a ({ c with maxmem := b } : Cache K V) :=
  ⟨h.perm, h.nodup, h.size, h.mem, h.costs, h.len_lt, h.sum_lt⟩

theorem Update_memSum_le {K V : Type} [DecidableEq K] {a : Acct K V}
    {c : Cache K V} (h : Inv a c) (k : K) (v : V) :
    memSum a (Cache.Update a c k v).buf
      ≤ memSum a c.buf + a.CalcItemMem (k, v) := by
  unfold Cache.Update
  cases hf : c.findEntry k with
  | none => dsimp only; omega
  | some e =>
      have hperm := Touch_buf_perm
        ({ c with buf := c.buf.map (fun it => if it.1 = k then (k, v) else it),
                  currmem := Cache.UpdMem a c e.2 v } : Cache K V) k
      rw [memSum_perm a hperm]
      have hrepl := memSum_replaceValue a k v h.nodup hf
      show memSum a (c.buf.map (fun it => if it.1 = k then (k, v) else it))
        ≤ memSum a c.buf + a.CalcItemMem (k, v)
      omega

theorem Set_buf_length_le {K V : Type} [DecidableEq K] (a : Acct K V)
    (c : Cache K V) (k : K) (v : V) :
    (Cache.Set a c k v).buf.length ≤ c.buf.length + 1 := by
  unfold Cache.Set
  split
  · rw [Update_buf_length]
    omega
  · have hbuf := Push_buf a c k v
    by_cases hover : c.maxsize < addW c.currsize 1 ∨
        c.maxmem < addW c.currmem (a.CalcItemMem (k, v))
    · rw [if_pos hover] at hbuf
      rw [hbuf]
      simp
    · rw [if_neg hover] at hbuf
      rw [hbuf]
      simp

theorem Set_memSum_le {K V : Type} [DecidableEq K] {a : Acct K V}
    {c : Cache K V} (h : Inv a c) (k : K) (v : V) :
    memSum a (Cache.Set a c k v).buf
      ≤ memSum a c.buf + a.CalcItemMem (k, v) := by
  unfold Cache.Set
  split
  · exact Update_memSum_le h k v
  · have hbuf := Push_buf a c k v
    by_cases hover : c.maxsize < addW c.currsize 1 ∨
        c.maxmem < addW c.currmem (a.CalcItemMem (k, v))
    · rw [if_pos hover] at hbuf
      rw [hbuf]
      have hsub : (((k, v) :: c.buf).dropLast).Sublist ((k, v) :: c.buf) :=
        List.dropLast_sublist _
      have := memSum_sublist_le a hsub
      rw [memSum_cons] at this
      omega
    · rw [if_neg hover] at hbuf
      rw [hbuf, memSum_cons]
      omega

theorem foldl_Set_inv {K V : Type} [DecidableEq K] {a : Acct K V} :
    ∀ (items : List (K × V)) (c : Cache K V), Inv a c →
      (∀ it ∈ items, a.rawItemMem it < wsize) →
      c.buf.length + items.length < wsize →
      memSum a c.buf + memSum a items < wsize →
      Inv a (items.foldl (fun st it => Cache.Set a st it.1 it.2) c) := by
  intro items
  induction items with
  | nil => intro c h _ _ _; exact h
  | cons it rest ih =>
      intro c h hraws hlen hmem
      rw [memSum_cons] at hmem
      simp only [List.length_cons] at hlen
      simp only [List.foldl_cons]
      have hraw : a.rawItemMem it < wsize := hraws it (List.mem_cons_self _ _)
      have hraw' : a.rawItemMem (it.1, it.2) < wsize := hraw
      have h1 : Inv a (Cache.Set a c it.1 it.2) :=
        Set_inv h hraw' (by omega)
          (by
            have : a.CalcItemMem (it.1, it.2) = a.CalcItemMem it := rfl
            rw [this]
            omega)
      have hlen1 := Set_buf_length_le a c it.1 it.2
      have hmem1 := Set_memSum_le h it.1 it.2
      have hcc : a.CalcItemMem (it.1, it.2) = a.CalcItemMem it := rfl
      rw [hcc] at hmem1
      apply ih _ h1 (fun x hx => hraws x (List.mem_cons_of_mem _ hx))
      · omega
      · omega

theorem Inv_apply {K V : Type} [DecidableEq K] {a : Acct K V}
    (sp : SerdePair K V) {c c' : Cache K V} {op : Op K V}
    (h : Inv a c) (hroom : OpRoom sp a c op)
    (happ : applyOp sp a c op = some c') : Inv a c' := by
  cases op with
  | set k v =>
      simp only [applyOp, Option.some.injEq] at happ
      obtain ⟨h1, h2, h3⟩ := hroom
      rw [← happ]; exact Set_inv h h1 h2 h3
  | add k v =>
      simp only [applyOp, Option.some.injEq] at happ
      obtain ⟨h1, h2, h3⟩ := hroom
      rw [← happ]; exact Add_inv h h1 h2 h3
  | replace k v =>
      simp only [applyOp, Option.some.injEq] at happ
      obtain ⟨h1, h3⟩ := hroom
      rw [← happ]; exact Replace_inv h h1 h3
  | get k =>
      simp only [applyOp, Option.some.injEq] at happ
      rw [← happ]; exact Get_inv h k
  | del k =>
      simp only [applyOp, Option.some.injEq] at happ
      rw [← happ]; exact Delete_inv h k
  | flush =>
      simp only [applyOp, Option.some.injEq] at happ
      rw [← happ]; exact Flush_inv c
  | maxsize n =>
      simp only [applyOp, Option.some.injEq] at happ
      rw [← happ]; exact (Maxsize_spec h n).1
  | maxmem b =>
      simp only [applyOp, Option.some.injEq] at happ
      rw [← happ]
      have hloop := (MaxmemLoop_spec a b c.buf.length c le_rfl h).1
      unfold Cache.Maxmem
      exact Inv_set_maxmem hloop b
  | load bytes =>
      simp only [applyOp] at happ
      unfold Cache.Load at happ
      cases hpe : parseEntries sp bytes with
      | none => rw [hpe] at happ; simp at happ
      | some items =>
          rw [hpe] at happ
          have happ' : items.foldl (fun st it => Cache.Set a st it.1 it.2)
              (Cache.Flush c) = c' := by
            simpa using happ
          obtain ⟨hr1, hr2, hr3⟩ := hroom items hpe
          rw [← happ']
          apply foldl_Set_inv items (Cache.Flush c) (Flush_inv c) hr1
          · show (Cache.Flush c).buf.length + items.length < wsize
            simpa [Cache.Flush] using hr2
          · show memSum a (Cache.Flush c).buf + memSum a items < wsize
            simpa [Cache.Flush, memSum_nil] using hr3

/-! ### Helpers for the recency, stats and termination claims -/

theorem head_key {K V : Type} {buf : List (K × V)} {e : K × V} {k : K}
    (hh : buf.head? = some e) (hk : e.1 = k) :
    (buf.map Prod.fst).head? = some k := by
  rw [List.head?_map, hh]
  simp [hk]

theorem Push_head {K V : Type} [DecidableEq K] (a : Acct K V) (c : Cache K V)
    (k : K) (v : V) :
    k ∈ (Cache.Push a c k v).buf.map Prod.fst →
    ((Cache.Push a c k v).buf.map Prod.fst).head? = some k := by
  rw [Push_buf]
  by_cases hover : c.maxsize < addW c.currsize 1 ∨
      c.maxmem < addW c.currmem (a.CalcItemMem (k, v))
  · rw [if_pos hover]
    cases c.buf with
    | nil => intro hmem; simp at hmem
    | cons x xs =>
        intro _
        rw [List.dropLast_cons₂]
        simp
  · rw [if_neg hover]
    intro _
    simp

theorem Touch_head_key {K V : Type} [DecidableEq K] {c : Cache K V} {k : K}
    (h : k ∈ c.buf.map Prod.fst) :
    ((Cache.Touch c k).buf.map Prod.fst).head? = some k := by
  obtain ⟨e, hh, hk⟩ := Touch_head h
  exact head_key hh hk

theorem Update_head_key {K V : Type} [DecidableEq K] {a : Acct K V}
    {c : Cache K V} {k : K} (v : V) (h : k ∈ c.buf.map Prod.fst) :
    ((Cache.Update a c k v).buf.map Prod.fst).head? = some k := by
  obtain ⟨e, hf, hek⟩ := find?_key_of_mem h
  have hf' : c.findEntry k = some e := hf
  unfold Cache.Update
  rw [hf']
  apply Touch_head_key
  show k ∈ ({ c with
      buf := c.buf.map (fun it => if it.1 = k then (k, v) else it),
      currmem := Cache.UpdMem a c e.2 v } : Cache K V).buf.map Prod.fst
  rw [map_fst_replaceValue]
  exact h

theorem MaxmemLoop_id {K V : Type} [DecidableEq K] {a : Acct K V} {b : Nat}
    {c : Cache K V} (hb : ¬ b < c.currmem) :
    Cache.MaxmemLoop a b c = c := by
  rw [Cache.MaxmemLoop, dif_neg (fun hc => hb hc.1)]

theorem MaxmemLoop_stats {K V : Type} [DecidableEq K] (a : Acct K V)
    (b : Nat) : ∀ (n : Nat) (c : Cache K V), c.buf.length ≤ n →
    (Cache.MaxmemLoop a b c).hits = c.hits ∧
    (Cache.MaxmemLoop a b c).misses = c.misses := by
  intro n
  induction n with
  | zero =>
      intro c hn
      have hnil : c.buf = [] := List.length_eq_zero.mp (by omega)
      rw [Cache.MaxmemLoop, dif_neg (by rw [hnil]; simp)]
      exact ⟨rfl, rfl⟩
  | succ n ih =>
      intro c hn
      rw [Cache.MaxmemLoop]
      by_cases hcond : b < c.currmem ∧ 0 < c.buf.length
      · rw [dif_pos hcond]
        have hne : c.buf ≠ [] := List.ne_nil_of_length_pos hcond.2
        have hlen : (Cache.Pop a c).buf.length ≤ n := by
          rw [Pop_buf_dropLast a hne]
          have := List.length_dropLast c.buf
          omega
        obtain ⟨h1, h2⟩ := ih (Cache.Pop a c) hlen
        obtain ⟨hp1, hp2, _, _⟩ := Pop_fields a c
        exact ⟨h1.trans hp1, h2.trans hp2⟩
      · rw [dif_neg hcond]
        exact ⟨rfl, rfl⟩

theorem Maxsize_stats {K V : Type} [DecidableEq K] (a : Acct K V)
    (c : Cache K V) (n : Nat) :
    (Cache.Maxsize a c n).hits = c.hits ∧
    (Cache.Maxsize a c n).misses = c.misses := by
  unfold Cache.Maxsize
  split <;> exact ⟨rfl, rfl⟩

theorem Load_stats {K V : Type} [DecidableEq K] {sp : SerdePair K V}
    {a : Acct K V} {c c' : Cache K V} {bytes : List Nat}
    (hload : Cache.Load sp a c bytes = some c') :
    c'.hits = c.hits ∧ c'.misses = c.misses := by
  unfold Cache.Load at hload
  cases hpe : parseEntries sp bytes with
  | none => rw [hpe] at hload; simp at hload
  | some items =>
      rw [hpe] at hload
      have hload' : items.foldl (fun st it => Cache.Set a st it.1 it.2)
          (Cache.Flush c) = c' := by
        simpa using hload
      have hfold := foldl_Set_pres a
        (fun x => x.hits = c.hits ∧ x.misses = c.misses)
        (fun st k v hst => by
          obtain ⟨hh, hm, _, _⟩ := Set_fields a st k v
          exact ⟨hh.trans hst.1, hm.trans hst.2⟩)
        items (Cache.Flush c) ⟨rfl, rfl⟩
      rw [hload'] at hfold
      exact hfold

theorem kItemMem_le_raw {K V : Type} (a : Acct K V) (it : K × V) :
    a.kItemMem ≤ a.rawItemMem it := by
  unfold Acct.rawItemMem
  omega

/-! ### Serialization round trip -/

theorem leBytes_length (n : Nat) : (leBytes n).length = 8 := rfl

theorem leVal_leBytes (n : Nat) : leVal (leBytes n) = n % wsize := by
  show n % 256 + 256 * (n / 256 % 256 + 256 * (n / 256 ^ 2 % 256
      + 256 * (n / 256 ^ 3 % 256 + 256 * (n / 256 ^ 4 % 256
      + 256 * (n / 256 ^ 5 % 256 + 256 * (n / 256 ^ 6 % 256
      + 256 * (n / 256 ^ 7 % 256 + 256 * 0)))))))
    = n % wsize
  unfold wsize
  omega

theorem parseChunk_encodeChunk (p rest : List Nat)
    (hlen : p.length < wsize) :
    parseChunk (encodeChunk p ++ rest) = some (p, rest) := by
  have hlb : (leBytes p.length).length = 8 := rfl
  have hdrop8 : (leBytes p.length).drop 8 = [] := rfl
  unfold parseChunk decodeSize
  rw [show encodeChunk p ++ rest = leBytes p.length ++ (p ++ rest) from by
    unfold encodeChunk
    rw [List.append_assoc]]
  rw [if_pos (by rw [List.length_append, hlb]; omega)]
  dsimp only
  rw [List.take_append_of_le_length (by rw [hlb]),
      List.take_of_length_le (by rw [hlb]),
      List.drop_append_of_le_length (by rw [hlb]), hdrop8, List.nil_append,
      leVal_leBytes, Nat.mod_eq_of_lt hlen]
  unfold readChunk
  rw [if_pos (by rw [List.length_append]; omega)]
  rw [List.take_append_of_le_length le_rfl, List.take_of_length_le le_rfl,
      List.drop_append_of_le_length le_rfl, List.drop_length,
      List.nil_append]

theorem parseEntry_serializeEntry {K V : Type} (sp : SerdePair K V)
    (it : K × V) (rest : List Nat)
    (hk : (sp.serKey it.1).length < wsize)
    (hv : (sp.serValue it.2).length < wsize) :
    parseEntry sp (serializeEntry sp it ++ rest)
      = some ((sp.deserKey (sp.serKey it.1),
               sp.deserValue (sp.serValue it.2)), rest) := by
  unfold parseEntry serializeEntry
  rw [List.append_assoc, parseChunk_encodeChunk _ _ hk]
  dsimp only
  rw [parseChunk_encodeChunk _ _ hv]

theorem serializeEntry_length_pos {K V : Type} (sp : SerdePair K V)
    (it : K × V) : 0 < (serializeEntry sp it).length := by
  unfold serializeEntry encodeChunk
  rw [List.length_append, List.length_append, leBytes_length]
  omega

theorem dumpFold_length_ge {K V : Type} (sp : SerdePair K V) :
    ∀ items : List (K × V),
      items.length
        ≤ (items.foldr (fun it acc => serializeEntry sp it ++ acc) []).length := by
  intro items
  induction items with
  | nil => simp
  | cons it rest ih =>
      simp only [List.foldr_cons, List.length_append, List.length_cons]
      have := serializeEntry_length_pos sp it
      omega

theorem parseEntriesFuel_cons {K V : Type} (sp : SerdePair K V) (f : Nat)
    {bs : List Nat} (hne : bs ≠ []) :
    parseEntriesFuel sp (f + 1) bs
      = match parseEntry sp bs with
        | none => none
        | some (it, rest) => (parseEntriesFuel sp f rest).map (it :: ·) := by
  cases bs with
  | nil => exact absurd rfl hne
  | cons b bs => rfl

theorem parseEntriesFuel_dump {K V : Type} (sp : SerdePair K V) :
    ∀ (items : List (K × V)) (fuel : Nat), items.length ≤ fuel →
      (∀ it ∈ items, sp.deserKey (sp.serKey it.1) = it.1
          ∧ sp.deserValue (sp.serValue it.2) = it.2
          ∧ (sp.serKey it.1).length < wsize
          ∧ (sp.serValue it.2).length < wsize) →
      parseEntriesFuel sp fuel
          (items.foldr (fun it acc => serializeEntry sp it ++ acc) [])
        = some items := by
  intro items
  induction items with
  | nil =>
      intro fuel _ _
      cases fuel <;> rfl
  | cons it rest ih =>
      intro fuel hf hhyps
      cases fuel with
      | zero => simp at hf
      | succ f =>
          obtain ⟨hdk, hdv, hlk, hlv⟩ := hhyps it (List.mem_cons_self _ _)
          simp only [List.foldr_cons]
          rw [parseEntriesFuel_cons sp f
              (List.ne_nil_of_length_pos
                (by
                  rw [List.length_append]
                  have := serializeEntry_length_pos sp it
                  omega))]
          rw [parseEntry_serializeEntry sp it _ hlk hlv]
          dsimp only
          rw [hdk, hdv]
          rw [ih f (by simpa using hf)
              (fun x hx => hhyps x (List.mem_cons_of_mem _ hx))]
          rfl

theorem parseEntries_Dump {K V : Type} [DecidableEq K] (sp : SerdePair K V)
    (c : Cache K V)
    (hhyps : ∀ it ∈ c.buf, sp.deserKey (sp.serKey it.1) = it.1
        ∧ sp.deserValue (sp.serValue it.2) = it.2
        ∧ (sp.serKey it.1).length < wsize
        ∧ (sp.serValue it.2).length < wsize) :
    parseEntries sp (Cache.Dump sp c) = some c.buf.reverse := by
  unfold parseEntries Cache.Dump
  exact parseEntriesFuel_dump sp c.buf.reverse _
    (dumpFold_length_ge sp c.buf.reverse)
    (fun it hit => hhyps it (List.mem_reverse.mp hit))

theorem foldl_Set_replay {K V : Type} [DecidableEq K] {a : Acct K V} :
    ∀ (items : List (K × V)) (c : Cache K V), Inv a c →
      ((items.map Prod.fst) ++ c.buf.map Prod.fst).Nodup →
      (∀ it ∈ items, a.rawItemMem it < wsize) →
      c.buf.length + items.length ≤ c.maxsize →
      memSum a c.buf + memSum a items ≤ c.maxmem →
      c.maxsize < wsize → c.maxmem < wsize →
      (items.foldl (fun st it => Cache.Set a st it.1 it.2) c).buf
        = items.reverse ++ c.buf := by
  intro items
  induction items with
  | nil => intro c _ _ _ _ _ _ _; simp
  | cons it rest ih =>
      intro c h hnd hraws hlen hmem hms hmm
      simp only [List.length_cons] at hlen
      rw [memSum_cons] at hmem
      simp only [List.map_cons, List.cons_append] at hnd
      have hknotin : it.1 ∉ rest.map Prod.fst ++ c.buf.map Prod.fst :=
        (List.nodup_cons.mp hnd).1
      have hknotbuf : it.1 ∉ c.buf.map Prod.fst := by
        intro hmem'
        exact hknotin (List.mem_append_right _ hmem')
      have hknott : it.1 ∉ c.table := fun ht => hknotbuf (h.perm.mem_iff.mp ht)
      have hset : Cache.Set a c it.1 it.2 = Cache.Push a c it.1 it.2 := by
        unfold Cache.Set
        rw [if_neg hknott]
      have hone : addW c.currsize 1 = c.currsize + 1 := by
        rw [h.size]
        exact addW_eq (by omega)
      have hcostlt : a.CalcItemMem (it.1, it.2) < wsize := calcItemMem_lt' a _
      have heta : a.CalcItemMem (it.1, it.2) = a.CalcItemMem it := rfl
      have htwo : addW c.currmem (a.CalcItemMem (it.1, it.2))
          = c.currmem + a.CalcItemMem it := by
        rw [heta, h.mem]
        exact addW_eq (by omega)
      have hnover : ¬(c.maxsize < addW c.currsize 1 ∨
          c.maxmem < addW c.currmem (a.CalcItemMem (it.1, it.2))) := by
        rw [hone, htwo, h.size, h.mem]
        omega
      have hbuf := Push_buf a c it.1 it.2
      rw [if_neg hnover] at hbuf
      have hpush_inv : Inv a (Cache.Push a c it.1 it.2) :=
        Push_inv h hknotbuf
          (show a.rawItemMem (it.1, it.2) < wsize from
            hraws it (List.mem_cons_self _ _))
          (by omega)
          (by rw [heta]; omega)
      obtain ⟨_, _, hms', hmm'⟩ := Push_fields a c it.1 it.2
      simp only [List.foldl_cons]
      rw [hset] at *
      rw [ih (Cache.Push a c it.1 it.2) hpush_inv ?nodup ?raws ?len ?mem
            (by rw [hms']; exact hms) (by rw [hmm']; exact hmm)]
      · rw [hbuf]
        simp
      case nodup =>
          rw [hbuf]
          show (rest.map Prod.fst ++ ((it.1, it.2) :: c.buf).map Prod.fst).Nodup
          simp only [List.map_cons]
          exact List.perm_middle.nodup_iff.mpr hnd
      case raws => exact fun x hx => hraws x (List.mem_cons_of_mem _ hx)
      case len =>
          rw [hbuf, hms']
          simp only [List.length_cons]
          omega
      case mem =>
          rw [hbuf, hmm']
          rw [show memSum a ((it.1, it.2) :: c.buf)
              = a.CalcItemMem it + memSum a c.buf from by
            rw [memSum_cons, heta]]
          omega

/-! ### Claim C1 -/

/-- C1 (counterexample): the capacity invariant fails as stated.  On a cache
with a value hint, `maxsize = 10` and `maxmem = 100` (both below the
unbounded sentinel), the public sequence `Set(1,5); Set(2,5); Set(3,200)`
ends with `Memory() = 237 > Maxmem() = 100`, because `Cache::Push` evicts at
most one entry per insertion. -/
theorem c1_capacity_counterexample :
    runOps natSerde acctHinted (Cache.fresh 10 100)
        [Op.set 1 5, Op.set 2 5, Op.set 3 200] = some cexState
    ∧ cexState.maxsize ≠ nval
    ∧ cexState.maxmem ≠ nval
    ∧ cexState.maxmem < cexState.currmem := by
  exact ⟨by decide, by decide, by decide, by decide⟩

/-- C1 (amended): for a cache without accountant hint functions, for every
sequence of public operations started from a fresh cache whose limits are
below the unbounded sentinel (and whose limit-setting arguments stay below
it), after each call `Size() ≤ Maxsize()` and `Memory() ≤ Maxmem()`.  With
hint functions the memory half can fail (see the counterexample): `Push`
evicts at most once and `Update` never evicts. -/
theorem c1_capacity_amended {K V : Type} [DecidableEq K]
    (sp : SerdePair K V) (a : Acct K V) (hp : a.plain)
    (ms mm : Nat) (hms : ms < nval) (hmm : mm + a.kItemMem < wsize)
    (ops : List (Op K V)) (hops : BoundedLimits a ops)
    (c : Cache K V)
    (hrun : runOps sp a (Cache.fresh ms mm) ops = some c) :
    c.Size ≤ c.maxsize ∧ c.Memory ≤ c.maxmem := by
  have hfresh : PlainGood a (Cache.fresh ms mm : Cache K V) :=
    ⟨Inv_fresh a ms mm, Nat.zero_le _, Nat.zero_le _, hms, hmm⟩
  have hg := PlainGood_runOps hp sp ops _ c hops hfresh hrun
  exact ⟨hg.2.1, hg.2.2.1⟩

/-- C1 (witness): the amended capacity invariant applied to a concrete
hint-free cache and operation sequence. -/
theorem c1_capacity_amended_witness :
    acctPlain.plain ∧ (5 : Nat) < nval ∧ 1000 + acctPlain.kItemMem < wsize ∧
    ((Cache.Set acctPlain (Cache.fresh 5 1000) 1 2).Size
        ≤ (Cache.Set acctPlain (Cache.fresh 5 1000) 1 2).maxsize
      ∧ (Cache.Set acctPlain (Cache.fresh 5 1000) 1 2).Memory
        ≤ (Cache.Set acctPlain (Cache.fresh 5 1000) 1 2).maxmem) :=
  ⟨⟨rfl, rfl⟩, by decide, by decide,
    c1_capacity_amended natSerde acctPlain ⟨rfl, rfl⟩ 5 1000 (by decide)
      (by decide)
      [Op.set 1 2]
      (by
        intro op hop
        have hop' : op = Op.set 1 2 := by simpa using hop
        subst hop'
        exact ⟨fun n h => by simp at h, fun b h => by simp at h⟩)
      (Cache.Set acctPlain (Cache.fresh 5 1000) 1 2) rfl⟩

/-! ### Claim C2 -/

/-- C2 (counterexample): the round-trip law fails for a reachable cache
state.  `cexState` holds `currmem = 237 > maxmem = 100` (over-limit because
`Push` evicts at most once), so replaying its dump through `Set` into a
fresh cache with identical limits evicts an entry: the reloaded cache holds
only `[(3, 200)]` while the original holds `[(3, 200), (2, 5)]`, and the
source's `operator==` reports inequality. -/
theorem c2_roundtrip_counterexample :
    (Cache.Load natSerde acctHinted
        (Cache.fresh cexState.maxsize cexState.maxmem)
        (Cache.Dump natSerde cexState)).map Cache.buf
      = some [(3, 200)]
    ∧ cexState.buf = [(3, 200), (2, 5)]
    ∧ (Cache.Load natSerde acctHinted
        (Cache.fresh cexState.maxsize cexState.maxmem)
        (Cache.Dump natSerde cexState)).map
          (fun d => Cache.beq d cexState)
      = some false := by
  exact ⟨by decide, by decide, by decide⟩

/-- C2 (amended): for every internally consistent cache state that complies
with both of its limits (and whose serializers faithfully round-trip each
stored entry), `Dump` followed by `Load` into an empty cache with identical
limits succeeds and reproduces the same entries in the same head-to-tail
recency order, so the source's `operator==` holds. -/
theorem c2_roundtrip_amended {K V : Type} [DecidableEq K] [DecidableEq V]
    (sp : SerdePair K V) (a : Acct K V) (c : Cache K V)
    (hinv : Inv a c)
    (hserde : ∀ it ∈ c.buf, sp.deserKey (sp.serKey it.1) = it.1
        ∧ sp.deserValue (sp.serValue it.2) = it.2
        ∧ (sp.serKey it.1).length < wsize
        ∧ (sp.serValue it.2).length < wsize)
    (hsz : c.buf.length ≤ c.maxsize)
    (hmem : memSum a c.buf ≤ c.maxmem)
    (hms : c.maxsize < wsize) (hmm : c.maxmem < wsize) :
    ∃ d : Cache K V,
      Cache.Load sp a (Cache.fresh c.maxsize c.maxmem) (Cache.Dump sp c)
        = some d
      ∧ d.buf = c.buf
      ∧ Cache.beq d c = true := by
  have hload : Cache.Load sp a (Cache.fresh c.maxsize c.maxmem)
      (Cache.Dump sp c)
      = some ((c.buf.reverse).foldl (fun st it => Cache.Set a st it.1 it.2)
          (Cache.Flush (Cache.fresh c.maxsize c.maxmem))) := by
    unfold Cache.Load
    rw [parseEntries_Dump sp c hserde]
    rfl
  have hbuf : ((c.buf.reverse).foldl (fun st it => Cache.Set a st it.1 it.2)
      (Cache.Flush (Cache.fresh c.maxsize c.maxmem))).buf = c.buf := by
    rw [foldl_Set_replay c.buf.reverse
        (Cache.Flush (Cache.fresh c.maxsize c.maxmem)) (Flush_inv _)
        ?nodup ?raws ?len ?mem hms hmm]
    · simp [Cache.Flush, Cache.fresh]
    case nodup =>
        show ((c.buf.reverse.map Prod.fst) ++ ([] : List K)).Nodup
        have hk := hinv.nodup
        unfold Cache.keys at hk
        simpa using hk
    case raws => exact fun it hit => hinv.costs it (List.mem_reverse.mp hit)
    case len =>
        show (0 : Nat) + c.buf.reverse.length ≤ c.maxsize
        simpa using hsz
    case mem =>
        show (0 : Nat) + memSum a c.buf.reverse ≤ c.maxmem
        rw [Nat.zero_add, memSum_perm a (List.reverse_perm c.buf)]
        exact hmem
  exact ⟨_, hload, hbuf, by
    unfold Cache.beq
    rw [hbuf]
    simp⟩

/-- C2 (witness): the amended round-trip law applied to a concrete compliant
two-entry hint-free cache. -/
theorem c2_roundtrip_amended_witness :
    ∃ d : Cache Nat Nat,
      Cache.Load natSerde acctPlain
          (Cache.fresh rtState.maxsize rtState.maxmem)
          (Cache.Dump natSerde rtState)
        = some d
      ∧ d.buf = rtState.buf
      ∧ Cache.beq d rtState = true :=
  c2_roundtrip_amended natSerde acctPlain rtState
    ⟨by decide, by decide, by decide, by decide, by decide, by decide,
      by decide⟩
    (by decide) (by decide) (by decide) (by decide) (by decide)

/-! ### Claim C3 -/

/-- C3: the decoder has no bounds checks, so on malformed input `Load` does
not raise a distinguishable fault — it reads past the end of the input
range.  In the model every out-of-bounds read is `none`: a stream truncated
inside the 8-byte size prefix, a declared chunk length exceeding the
remaining bytes, and a valid dump truncated mid-chunk all hit the
out-of-bounds marker rather than any in-bounds error path. -/
theorem c3_load_truncated_oob :
    decodeSize [0] = none
    ∧ readChunk 100 [1, 2, 3] = none
    ∧ parseChunk (leBytes 100 ++ [1, 2, 3]) = none
    ∧ Cache.Load natSerde acctPlain (Cache.fresh 10 100) [0] = none
    ∧ Cache.Load natSerde acctPlain (Cache.fresh 10 100)
        (leBytes 100 ++ [1, 2, 3]) = none
    ∧ Cache.Load natSerde acctPlain (Cache.fresh 10 100)
        ((Cache.Dump natSerde rtState).dropLast) = none := by
  exact ⟨by decide, by decide, by decide, by decide, by decide, by decide⟩

/-! ### Claim C4 -/

/-- C4 (counterexample): `Set` of an absent key does not loop eviction until
compliance.  With a value hint and `maxmem = 100`, setting the absent key 3
with an item of cost 216 evicts only one tail entry and leaves
`currmem = 237 > maxmem`. -/
theorem c4_set_counterexample :
    (3 ∉ (Cache.Set acctHinted
        (Cache.Set acctHinted (Cache.fresh 10 100) 1 5) 2 5).table)
    ∧ cexState = Cache.Set acctHinted
        (Cache.Set acctHinted
          (Cache.Set acctHinted (Cache.fresh 10 100) 1 5) 2 5) 3 200
    ∧ cexState.maxmem < cexState.currmem := by
  exact ⟨by decide, rfl, by decide⟩

/-- C4 (amended): for an absent key, `Set(k, v)` inserts the new entry at
the head of the recency order and then evicts the tail entry at most once —
exactly when the inserted state has `currsize > maxsize` or
`currmem > maxmem`.  In particular, a single entry whose cost alone exceeds
the memory limit, inserted into an empty cache, is itself evicted, leaving
the cache empty. -/
theorem c4_set_amended {K V : Type} [DecidableEq K] (a : Acct K V)
    (c : Cache K V) (k : K) (v : V) (hk : k ∉ c.table) :
    (Cache.Set a c k v).buf
      = (if c.maxsize < addW c.currsize 1 ∨
            c.maxmem < addW c.currmem (a.CalcItemMem (k, v))
         then ((k, v) :: c.buf).dropLast else (k, v) :: c.buf)
    ∧ (c.buf = [] → c.currmem = 0 → c.maxmem < a.CalcItemMem (k, v) →
        (Cache.Set a c k v).buf = []) := by
  have hset : Cache.Set a c k v = Cache.Push a c k v := by
    unfold Cache.Set
    rw [if_neg hk]
  constructor
  · rw [hset]
    exact Push_buf a c k v
  · intro hnil hcm hover
    have hadd : addW c.currmem (a.CalcItemMem (k, v))
        = a.CalcItemMem (k, v) := by
      rw [hcm]
      have := calcItemMem_lt' a (k, v)
      rw [addW_eq (by omega)]
      omega
    rw [hset, Push_buf a c k v, hadd, if_pos (Or.inr hover), hnil]
    rfl

/-- C4 (witness): the amended `Set` behaviour at a concrete oversized
insertion into an empty cache. -/
theorem c4_set_amended_witness :
    ((7 : Nat) ∉ (Cache.fresh 10 100 : Cache Nat Nat).table) ∧
    ((Cache.Set acctHinted (Cache.fresh 10 100) 7 200).buf
      = (if (Cache.fresh 10 100 : Cache Nat Nat).maxsize
            < addW (Cache.fresh 10 100 : Cache Nat Nat).currsize 1 ∨
           (Cache.fresh 10 100 : Cache Nat Nat).maxmem
            < addW (Cache.fresh 10 100 : Cache Nat Nat).currmem
                (acctHinted.CalcItemMem (7, 200))
         then ((7, 200) :: (Cache.fresh 10 100 : Cache Nat Nat).buf).dropLast
         else (7, 200) :: (Cache.fresh 10 100 : Cache Nat Nat).buf)
    ∧ ((Cache.fresh 10 100 : Cache Nat Nat).buf = [] →
        (Cache.fresh 10 100 : Cache Nat Nat).currmem = 0 →
        (Cache.fresh 10 100 : Cache Nat Nat).maxmem
          < acctHinted.CalcItemMem (7, 200) →
        (Cache.Set acctHinted (Cache.fresh 10 100) 7 200).buf = [])) :=
  ⟨by decide, c4_set_amended acctHinted (Cache.fresh 10 100) 7 200 (by decide)⟩

/-! ### Claim C5 -/

/-- C5: accounting invariant.  A fresh cache satisfies the internal
invariant, and every public operation preserves it (given room for the
`size_t` arithmetic): afterwards `currsize` equals the number of live
entries, which equals the index's key count, and `currmem` equals the sum
over live entries of `kItemMem + 2 * keyHint + valueHint` (hint terms zero
when absent; the cost is recomputed through `UpdMem` when a value is
replaced). -/
theorem c5_accounting_invariant {K V : Type} [DecidableEq K]
    (sp : SerdePair K V) (a : Acct K V) (ms mm : Nat) :
    Inv a (Cache.fresh ms mm : Cache K V)
    ∧ ∀ (c c' : Cache K V) (op : Op K V), Inv a c → OpRoom sp a c op →
        applyOp sp a c op = some c' →
        Inv a c'
        ∧ c'.currsize = c'.buf.length
        ∧ c'.currsize = c'.table.length
        ∧ c'.currmem = rawMemSum a c'.buf := by
  refine ⟨Inv_fresh a ms mm, ?_⟩
  intro c c' op h hroom happ
  have h' := Inv_apply sp h hroom happ
  refine ⟨h', h'.size, ?_, ?_⟩
  · rw [h'.size]
    exact ((h'.perm.length_eq).trans (List.length_map _ _)).symm
  · rw [h'.mem]
    exact memSum_eq_rawMemSum h'.costs

/-- C5 (witness): the accounting invariant applied to a concrete `Set` on a
fresh cache. -/
theorem c5_accounting_invariant_witness :
    Inv acctPlain (Cache.fresh 5 1000 : Cache Nat Nat)
    ∧ (Inv acctPlain (Cache.Set acctPlain (Cache.fresh 5 1000) 1 2)
      ∧ (Cache.Set acctPlain (Cache.fresh 5 1000) 1 2).currsize
          = (Cache.Set acctPlain (Cache.fresh 5 1000) 1 2).buf.length
      ∧ (Cache.Set acctPlain (Cache.fresh 5 1000) 1 2).currsize
          = (Cache.Set acctPlain (Cache.fresh 5 1000) 1 2).table.length
      ∧ (Cache.Set acctPlain (Cache.fresh 5 1000) 1 2).currmem
          = rawMemSum acctPlain
              (Cache.Set acctPlain (Cache.fresh 5 1000) 1 2).buf) :=
  ⟨(c5_accounting_invariant natSerde acctPlain 5 1000).1,
    (c5_accounting_invariant natSerde acctPlain 5 1000).2
      (Cache.fresh 5 1000) (Cache.Set acctPlain (Cache.fresh 5 1000) 1 2)
      (Op.set 1 2)
      (Inv_fresh acctPlain 5 1000)
      ⟨by decide, by decide, by decide⟩
      rfl⟩

/-! ### Claim C6 -/

/-- C6: recency invariant.  After `Set`, `Add`, `Replace` or `Get`, if the
touched key is present in the cache afterwards, its entry heads the
head-to-tail iteration order. -/
theorem c6_recency_invariant {K V : Type} [DecidableEq K] (a : Acct K V)
    (c : Cache K V) (h : Inv a c) (k : K) (v : V) :
    (k ∈ (Cache.Set a c k v).buf.map Prod.fst →
      ((Cache.Set a c k v).buf.map Prod.fst).head? = some k)
    ∧ (k ∈ (Cache.Add a c k v).1.buf.map Prod.fst →
      ((Cache.Add a c k v).1.buf.map Prod.fst).head? = some k)
    ∧ (k ∈ (Cache.Replace a c k v).1.buf.map Prod.fst →
      ((Cache.Replace a c k v).1.buf.map Prod.fst).head? = some k)
    ∧ (k ∈ (Cache.Get c k).1.buf.map Prod.fst →
      ((Cache.Get c k).1.buf.map Prod.fst).head? = some k) := by
  have hkeys : ∀ x, x ∈ c.table ↔ x ∈ c.buf.map Prod.fst :=
    fun x => h.perm.mem_iff
  refine ⟨?_, ?_, ?_, ?_⟩
  · unfold Cache.Set
    split
    case isTrue hmem => intro _; exact Update_head_key v ((hkeys k).mp hmem)
    case isFalse hmem => exact Push_head a c k v
  · unfold Cache.Add
    split
    case isTrue hmem => intro _; exact Touch_head_key ((hkeys k).mp hmem)
    case isFalse hmem => exact Push_head a c k v
  · unfold Cache.Replace
    split
    case isTrue hmem => intro _; exact Update_head_key v ((hkeys k).mp hmem)
    case isFalse hmem => intro hkk; exact absurd ((hkeys k).mpr hkk) hmem
  · unfold Cache.Get
    split
    case isTrue hmem =>
        intro _
        exact Touch_head_key ((hkeys k).mp hmem)
    case isFalse hmem =>
        intro hkk
        exact absurd ((hkeys k).mpr hkk) hmem

/-- C6 (witness): the recency invariant applied to a concrete one-entry
cache. -/
theorem c6_recency_invariant_witness :
    ((3 : Nat) ∈ (Cache.Set acctPlain (Cache.fresh 5 1000) 3 7).buf.map
        Prod.fst →
      ((Cache.Set acctPlain (Cache.fresh 5 1000) 3 7).buf.map
        Prod.fst).head? = some 3)
    ∧ ((3 : Nat) ∈ (Cache.Add acctPlain (Cache.fresh 5 1000) 3 7).1.buf.map
        Prod.fst →
      ((Cache.Add acctPlain (Cache.fresh 5 1000) 3 7).1.buf.map
        Prod.fst).head? = some 3)
    ∧ ((3 : Nat) ∈
        (Cache.Replace acctPlain (Cache.fresh 5 1000) 3 7).1.buf.map
          Prod.fst →
      ((Cache.Replace acctPlain (Cache.fresh 5 1000) 3 7).1.buf.map
        Prod.fst).head? = some 3)
    ∧ ((3 : Nat) ∈ (Cache.Get (Cache.fresh 5 1000 : Cache Nat Nat) 3).1.buf.map
        Prod.fst →
      ((Cache.Get (Cache.fresh 5 1000 : Cache Nat Nat) 3).1.buf.map
        Prod.fst).head? = some 3) :=
  c6_recency_invariant acctPlain (Cache.fresh 5 1000)
    (Inv_fresh acctPlain 5 1000) 3 7

/-! ### Claim C7 -/

/-- C7: the limit setters.  `Maxsize(n)` with the sentinel only stores the
limit; otherwise it truncates the buffer to its first `n` entries (evicting
from the tail, least-recently-used first), stores the limit, clamps
`currsize`, and leaves `maxmem`, `hits` and `misses` unchanged.
`Maxmem(b)` stores the limit, leaves `maxsize`, `hits` and `misses`
unchanged, evicts from the tail (the remaining buffer is a prefix) until
`Memory() ≤ b`, and with the sentinel changes nothing but the limit. -/
theorem c7_limit_setters {K V : Type} [DecidableEq K] (a : Acct K V)
    (c : Cache K V) (h : Inv a c) (n b : Nat) :
    (n = nval → Cache.Maxsize a c n = { c with maxsize := n })
    ∧ (n ≠ nval →
        (Cache.Maxsize a c n).buf = c.buf.take n
        ∧ (Cache.Maxsize a c n).maxsize = n
        ∧ (Cache.Maxsize a c n).maxmem = c.maxmem
        ∧ (Cache.Maxsize a c n).hits = c.hits
        ∧ (Cache.Maxsize a c n).misses = c.misses
        ∧ (Cache.Maxsize a c n).currsize = min n c.currsize
        ∧ (Cache.Maxsize a c n).currsize ≤ n)
    ∧ ((Cache.Maxmem a c b).maxmem = b
        ∧ (Cache.Maxmem a c b).maxsize = c.maxsize
        ∧ (Cache.Maxmem a c b).hits = c.hits
        ∧ (Cache.Maxmem a c b).misses = c.misses
        ∧ (Cache.Maxmem a c b).currmem ≤ b
        ∧ (∃ m, (Cache.Maxmem a c b).buf = c.buf.take m)
        ∧ (b = nval → Cache.Maxmem a c b = { c with maxmem := b })) := by
  obtain ⟨_, hsent, hspec⟩ := Maxsize_spec h n
  obtain ⟨_, hle, hpre, hh, hm, hms, _⟩ :=
    MaxmemLoop_spec a b c.buf.length c le_rfl h
  refine ⟨hsent, ?_, ?_⟩
  · intro hne
    obtain ⟨h1, h2, h3, h4, h5, h6⟩ := hspec hne
    refine ⟨h1, h2, h3, h4, h5, h6, ?_⟩
    rw [h6]
    omega
  · refine ⟨rfl, hms, hh, hm, hle, hpre, ?_⟩
    intro hbv
    subst hbv
    have hlt : c.currmem < wsize := h.mem ▸ h.sum_lt
    have hnw := nval_succ
    have hcm : ¬ nval < c.currmem := by omega
    unfold Cache.Maxmem
    rw [MaxmemLoop_id hcm]

/-- C7 (witness): the limit setters applied to a concrete two-entry cache
with `n = 1` and `b = 24`. -/
theorem c7_limit_setters_witness :
    Inv acctPlain
      (Cache.Set acctPlain (Cache.Set acctPlain (Cache.fresh 5 1000) 1 2) 3 4)
    ∧ (((1 : Nat) = nval →
        Cache.Maxsize acctPlain
          (Cache.Set acctPlain
            (Cache.Set acctPlain (Cache.fresh 5 1000) 1 2) 3 4) 1
          = { Cache.Set acctPlain
                (Cache.Set acctPlain (Cache.fresh 5 1000) 1 2) 3 4
              with maxsize := 1 })
      ∧ ((1 : Nat) ≠ nval →
          (Cache.Maxsize acctPlain
            (Cache.Set acctPlain
              (Cache.Set acctPlain (Cache.fresh 5 1000) 1 2) 3 4) 1).buf
            = (Cache.Set acctPlain
                (Cache.Set acctPlain (Cache.fresh 5 1000) 1 2) 3 4).buf.take 1
          ∧ (Cache.Maxsize acctPlain
              (Cache.Set acctPlain
                (Cache.Set acctPlain (Cache.fresh 5 1000) 1 2) 3 4) 1).maxsize
            = 1
          ∧ (Cache.Maxsize acctPlain
              (Cache.Set acctPlain
                (Cache.Set acctPlain (Cache.fresh 5 1000) 1 2) 3 4) 1).maxmem
            = (Cache.Set acctPlain
                (Cache.Set acctPlain (Cache.fresh 5 1000) 1 2) 3 4).maxmem
          ∧ (Cache.Maxsize acctPlain
              (Cache.Set acctPlain
                (Cache.Set acctPlain (Cache.fresh 5 1000) 1 2) 3 4) 1).hits
            = (Cache.Set acctPlain
                (Cache.Set acctPlain (Cache.fresh 5 1000) 1 2) 3 4).hits
          ∧ (Cache.Maxsize acctPlain
              (Cache.Set acctPlain
                (Cache.Set acctPlain (Cache.fresh 5 1000) 1 2) 3 4) 1).misses
            = (Cache.Set acctPlain
                (Cache.Set acctPlain (Cache.fresh 5 1000) 1 2) 3 4).misses
          ∧ (Cache.Maxsize acctPlain
              (Cache.Set acctPlain
                (Cache.Set acctPlain (Cache.fresh 5 1000) 1 2) 3 4) 1).currsize
            = min 1 (Cache.Set acctPlain
                (Cache.Set acctPlain (Cache.fresh 5 1000) 1 2) 3 4).currsize
          ∧ (Cache.Maxsize acctPlain
              (Cache.Set acctPlain
                (Cache.Set acctPlain (Cache.fresh 5 1000) 1 2) 3 4) 1).currsize
            ≤ 1)
      ∧ ((Cache.Maxmem acctPlain
            (Cache.Set acctPlain
              (Cache.Set acctPlain (Cache.fresh 5 1000) 1 2) 3 4) 24).maxmem
          = 24
        ∧ (Cache.Maxmem acctPlain
            (Cache.Set acctPlain
              (Cache.Set acctPlain (Cache.fresh 5 1000) 1 2) 3 4) 24).maxsize
          = (Cache.Set acctPlain
              (Cache.Set acctPlain (Cache.fresh 5 1000) 1 2) 3 4).maxsize
        ∧ (Cache.Maxmem acctPlain
            (Cache.Set acctPlain
              (Cache.Set acctPlain (Cache.fresh 5 1000) 1 2) 3 4) 24).hits
          = (Cache.Set acctPlain
              (Cache.Set acctPlain (Cache.fresh 5 1000) 1 2) 3 4).hits
        ∧ (Cache.Maxmem acctPlain
            (Cache.Set acctPlain
              (Cache.Set acctPlain (Cache.fresh 5 1000) 1 2) 3 4) 24).misses
          = (Cache.Set acctPlain
              (Cache.Set acctPlain (Cache.fresh 5 1000) 1 2) 3 4).misses
        ∧ (Cache.Maxmem acctPlain
            (Cache.Set acctPlain
              (Cache.Set acctPlain (Cache.fresh 5 1000) 1 2) 3 4) 24).currmem
          ≤ 24
        ∧ (∃ m, (Cache.Maxmem acctPlain
            (Cache.Set acctPlain
              (Cache.Set acctPlain (Cache.fresh 5 1000) 1 2) 3 4) 24).buf
          = (Cache.Set acctPlain
              (Cache.Set acctPlain (Cache.fresh 5 1000) 1 2) 3 4).buf.take m)
        ∧ ((24 : Nat) = nval →
            Cache.Maxmem acctPlain
              (Cache.Set acctPlain
                (Cache.Set acctPlain (Cache.fresh 5 1000) 1 2) 3 4) 24
            = { Cache.Set acctPlain
                  (Cache.Set acctPlain (Cache.fresh 5 1000) 1 2) 3 4
                with maxmem := 24 }))) :=
  ⟨⟨by decide, by decide, by decide, by decide, by decide, by decide,
      by decide⟩,
    c7_limit_setters acctPlain
      (Cache.Set acctPlain (Cache.Set acctPlain (Cache.fresh 5 1000) 1 2) 3 4)
      ⟨by decide, by decide, by decide, by decide, by decide, by decide,
        by decide⟩ 1 24⟩

/-! ### Claim C8 -/

/-- C8: stats framing.  Across the public operations, `hits` increments
only on a `Get` of a present key and `misses` only on a `Get` of an absent
key (no other operation changes either counter), and `Flush` zeroes
`currsize` and `currmem` while leaving `hits` and `misses` unchanged. -/
theorem c8_stats_framing {K V : Type} [DecidableEq K] (sp : SerdePair K V)
    (a : Acct K V) (c c' : Cache K V) (op : Op K V)
    (happ : applyOp sp a c op = some c') :
    ((∀ k, op ≠ Op.get k) → c'.hits = c.hits ∧ c'.misses = c.misses)
    ∧ (∀ k, op = Op.get k →
        (k ∈ c.table → c'.hits = addW c.hits 1 ∧ c'.misses = c.misses)
        ∧ (k ∉ c.table → c'.misses = addW c.misses 1 ∧ c'.hits = c.hits))
    ∧ (op = Op.flush → c'.currsize = 0 ∧ c'.currmem = 0
        ∧ c'.hits = c.hits ∧ c'.misses = c.misses) := by
  refine ⟨?_, ?_, ?_⟩
  · intro hng
    cases op with
    | set k v =>
        simp only [applyOp, Option.some.injEq] at happ
        rw [← happ]
        obtain ⟨hh, hm, _, _⟩ := Set_fields a c k v
        exact ⟨hh, hm⟩
    | add k v =>
        simp only [applyOp, Option.some.injEq] at happ
        rw [← happ]
        obtain ⟨hh, hm, _, _⟩ := Add_fields a c k v
        exact ⟨hh, hm⟩
    | replace k v =>
        simp only [applyOp, Option.some.injEq] at happ
        rw [← happ]
        obtain ⟨hh, hm, _, _⟩ := Replace_fields a c k v
        exact ⟨hh, hm⟩
    | get k => exact absurd rfl (hng k)
    | del k =>
        simp only [applyOp, Option.some.injEq] at happ
        rw [← happ]
        obtain ⟨hh, hm, _, _⟩ := Delete_fields a c k
        exact ⟨hh, hm⟩
    | flush =>
        simp only [applyOp, Option.some.injEq] at happ
        rw [← happ]
        exact ⟨rfl, rfl⟩
    | maxsize n =>
        simp only [applyOp, Option.some.injEq] at happ
        rw [← happ]
        exact Maxsize_stats a c n
    | maxmem b =>
        simp only [applyOp, Option.some.injEq] at happ
        rw [← happ]
        exact MaxmemLoop_stats a b c.buf.length c le_rfl
    | load bytes =>
        exact Load_stats happ
  · intro k hop
    subst hop
    simp only [applyOp, Option.some.injEq] at happ
    rw [← happ]
    exact Get_stats c k
  · intro hop
    subst hop
    simp only [applyOp, Option.some.injEq] at happ
    rw [← happ]
    exact ⟨rfl, rfl, rfl, rfl⟩

/-- C8 (witness): the stats framing applied to a concrete `Get` miss on a
fresh cache. -/
theorem c8_stats_framing_witness :
    ((∀ k, (Op.get 1 : Op Nat Nat) ≠ Op.get k) →
      (Cache.Get (Cache.fresh 5 1000 : Cache Nat Nat) 1).1.hits
        = (Cache.fresh 5 1000 : Cache Nat Nat).hits
      ∧ (Cache.Get (Cache.fresh 5 1000 : Cache Nat Nat) 1).1.misses
        = (Cache.fresh 5 1000 : Cache Nat Nat).misses)
    ∧ (∀ k, (Op.get 1 : Op Nat Nat) = Op.get k →
        (k ∈ (Cache.fresh 5 1000 : Cache Nat Nat).table →
          (Cache.Get (Cache.fresh 5 1000 : Cache Nat Nat) 1).1.hits
            = addW (Cache.fresh 5 1000 : Cache Nat Nat).hits 1
          ∧ (Cache.Get (Cache.fresh 5 1000 : Cache Nat Nat) 1).1.misses
            = (Cache.fresh 5 1000 : Cache Nat Nat).misses)
        ∧ (k ∉ (Cache.fresh 5 1000 : Cache Nat Nat).table →
          (Cache.Get (Cache.fresh 5 1000 : Cache Nat Nat) 1).1.misses
            = addW (Cache.fresh 5 1000 : Cache Nat Nat).misses 1
          ∧ (Cache.Get (Cache.fresh 5 1000 : Cache Nat Nat) 1).1.hits
            = (Cache.fresh 5 1000 : Cache Nat Nat).hits))
    ∧ ((Op.get 1 : Op Nat Nat) = Op.flush →
        (Cache.Get (Cache.fresh 5 1000 : Cache Nat Nat) 1).1.currsize = 0
        ∧ (Cache.Get (Cache.fresh 5 1000 : Cache Nat Nat) 1).1.currmem = 0
        ∧ (Cache.Get (Cache.fresh 5 1000 : Cache Nat Nat) 1).1.hits
          = (Cache.fresh 5 1000 : Cache Nat Nat).hits
        ∧ (Cache.Get (Cache.fresh 5 1000 : Cache Nat Nat) 1).1.misses
          = (Cache.fresh 5 1000 : Cache Nat Nat).misses) :=
  c8_stats_framing natSerde acctPlain (Cache.fresh 5 1000)
    (Cache.Get (Cache.fresh 5 1000 : Cache Nat Nat) 1).1 (Op.get 1) rfl

/-! ### Claim C9 -/

/-- C9: every `SafeCache` operation forwards to the corresponding `Cache`
operation on the wrapped core: the resulting core equals the core
operation's result, every returned value (guarded or not) equals the core
operation's return value, and once the call completes — including the death
of any returned `ScopeGuard` — the recursive mutex is back at its initial
count. -/
theorem c9_safecache_refinement {K V : Type} [DecidableEq K] [DecidableEq V]
    (a : Acct K V) (sp : SerdePair K V) (s other : SafeCache K V)
    (k : K) (v : V) (n : Nat) (bytes : List Nat) :
    ((SafeCache.SetS a s k v).core = Cache.Set a s.core k v
      ∧ (SafeCache.SetS a s k v).mutex = s.mutex)
    ∧ ((SafeCache.AddS a s k v).1.core = (Cache.Add a s.core k v).1
      ∧ (SafeCache.AddS a s k v).2.val = (Cache.Add a s.core k v).2
      ∧ (SafeCache.guardDrop (SafeCache.AddS a s k v).1).mutex = s.mutex)
    ∧ ((SafeCache.ReplaceS a s k v).1.core = (Cache.Replace a s.core k v).1
      ∧ (SafeCache.ReplaceS a s k v).2.val = (Cache.Replace a s.core k v).2
      ∧ (SafeCache.guardDrop (SafeCache.ReplaceS a s k v).1).mutex = s.mutex)
    ∧ ((SafeCache.GetS s k).1.core = (Cache.Get s.core k).1
      ∧ (SafeCache.GetS s k).2.val = (Cache.Get s.core k).2
      ∧ (SafeCache.guardDrop (SafeCache.GetS s k).1).mutex = s.mutex)
    ∧ ((SafeCache.DeleteS a s k).1.core = (Cache.Delete a s.core k).1
      ∧ (SafeCache.DeleteS a s k).2.val = (Cache.Delete a s.core k).2
      ∧ (SafeCache.guardDrop (SafeCache.DeleteS a s k).1).mutex = s.mutex)
    ∧ ((SafeCache.FlushS s).core = Cache.Flush s.core
      ∧ (SafeCache.FlushS s).mutex = s.mutex)
    ∧ ((SafeCache.SizeS s).1.core = s.core
      ∧ (SafeCache.SizeS s).2.val = s.core.Size
      ∧ (SafeCache.guardDrop (SafeCache.SizeS s).1).mutex = s.mutex)
    ∧ ((SafeCache.MemoryS s).1.core = s.core
      ∧ (SafeCache.MemoryS s).2.val = s.core.Memory
      ∧ (SafeCache.guardDrop (SafeCache.MemoryS s).1).mutex = s.mutex)
    ∧ ((SafeCache.MaxsizeGetS s).1.core = s.core
      ∧ (SafeCache.MaxsizeGetS s).2.val = s.core.maxsize
      ∧ (SafeCache.guardDrop (SafeCache.MaxsizeGetS s).1).mutex = s.mutex)
    ∧ ((SafeCache.MaxmemGetS s).1.core = s.core
      ∧ (SafeCache.MaxmemGetS s).2.val = s.core.maxmem
      ∧ (SafeCache.guardDrop (SafeCache.MaxmemGetS s).1).mutex = s.mutex)
    ∧ ((SafeCache.StatsS s).1.core = s.core
      ∧ (SafeCache.StatsS s).2.val = s.core.Stats
      ∧ (SafeCache.guardDrop (SafeCache.StatsS s).1).mutex = s.mutex)
    ∧ ((SafeCache.MaxsizeS a s n).core = Cache.Maxsize a s.core n
      ∧ (SafeCache.MaxsizeS a s n).mutex = s.mutex)
    ∧ ((SafeCache.MaxmemS a s n).core = Cache.Maxmem a s.core n
      ∧ (SafeCache.MaxmemS a s n).mutex = s.mutex)
    ∧ SafeCache.DumpS sp s = Cache.Dump sp s.core
    ∧ ((SafeCache.LoadS sp a s bytes).map SafeCache.core
        = Cache.Load sp a s.core bytes
      ∧ (SafeCache.LoadS sp a s bytes).map SafeCache.mutex
        = (Cache.Load sp a s.core bytes).map (fun _c => s.mutex))
    ∧ ((SafeCache.itemsListS s).1.core = s.core
      ∧ (SafeCache.itemsListS s).2.val = s.core.itemsList
      ∧ (SafeCache.guardDrop (SafeCache.itemsListS s).1).mutex = s.mutex)
    ∧ ((SafeCache.beqS s other).1.core = s.core
      ∧ (SafeCache.beqS s other).2.val = s.core.beq other.core
      ∧ (SafeCache.guardDrop (SafeCache.beqS s other).1).mutex = s.mutex) := by
  refine ⟨⟨rfl, rfl⟩, ⟨rfl, rfl, rfl⟩, ⟨rfl, rfl, rfl⟩, ⟨rfl, rfl, rfl⟩,
    ⟨rfl, rfl, rfl⟩, ⟨rfl, rfl⟩, ⟨rfl, rfl, rfl⟩, ⟨rfl, rfl, rfl⟩,
    ⟨rfl, rfl, rfl⟩, ⟨rfl, rfl, rfl⟩, ⟨rfl, rfl, rfl⟩, ⟨rfl, rfl⟩,
    ⟨rfl, rfl⟩, rfl, ⟨?_, ?_⟩, ⟨rfl, rfl, rfl⟩, ⟨rfl, rfl, rfl⟩⟩
  · show ((Cache.Load sp a s.core bytes).map _).map _
        = Cache.Load sp a s.core bytes
    cases Cache.Load sp a s.core bytes <;> rfl
  · show ((Cache.Load sp a s.core bytes).map _).map _
        = (Cache.Load sp a s.core bytes).map _
    cases Cache.Load sp a s.core bytes <;> rfl

/-! ### Claim C10 -/

/-- C10: termination of the `Maxmem(b)` eviction loop on invariant-satisfying
(reachable) states: the loop exits with `currmem ≤ b`; each `Pop` on a
non-empty buffer strictly decreases `currmem` by at least `kItemMem > 0`;
and an empty invariant state has `currmem = 0`, so `Pop` is never a no-op
while `currmem > b`. -/
theorem c10_maxmem_termination {K V : Type} [DecidableEq K] (a : Acct K V)
    (c : Cache K V) (h : Inv a c) (hk : 0 < a.kItemMem) (b : Nat) :
    (Cache.Maxmem a c b).currmem ≤ b
    ∧ (c.buf ≠ [] → (Cache.Pop a c).currmem + a.kItemMem ≤ c.currmem
        ∧ (Cache.Pop a c).currmem < c.currmem)
    ∧ (c.buf = [] → c.currmem = 0) := by
  refine ⟨(MaxmemLoop_spec a b c.buf.length c le_rfl h).2.1, ?_, ?_⟩
  · intro hne
    cases hg : c.buf.getLast? with
    | none => exact absurd (List.getLast?_eq_none_iff.mp hg) hne
    | some e =>
        have hegl : e = c.buf.getLast hne := by
          have h2 := List.getLast?_eq_getLast c.buf hne
          rw [hg] at h2
          exact Option.some_injective _ h2
        have he_mem : e ∈ c.buf := hegl ▸ List.getLast_mem hne
        have hraw : a.rawItemMem e < wsize := h.costs e he_mem
        have hcost : a.CalcItemMem e = a.rawItemMem e := calcItemMem_eq_raw hraw
        have hkle : a.kItemMem ≤ a.CalcItemMem e := by
          rw [hcost]
          exact kItemMem_le_raw a e
        have hcle : a.CalcItemMem e ≤ c.currmem := by
          rw [h.mem]
          exact calcItemMem_le_memSum a he_mem
        have hpop : (Cache.Pop a c).currmem
            = subW c.currmem (a.CalcItemMem e) := by
          unfold Cache.Pop
          rw [hg]
        rw [hpop, subW_eq hcle (h.mem ▸ h.sum_lt)]
        omega
  · intro hnil
    rw [h.mem, hnil, memSum_nil]

/-- C10 (witness): the termination facts applied to a concrete one-entry
cache and bound `b = 0`. -/
theorem c10_maxmem_termination_witness :
    (0 : Nat) < acctPlain.kItemMem
    ∧ ((Cache.Maxmem acctPlain
        (Cache.Set acctPlain (Cache.fresh 5 1000) 1 2) 0).currmem ≤ 0
      ∧ ((Cache.Set acctPlain (Cache.fresh 5 1000) 1 2).buf ≠ [] →
          (Cache.Pop acctPlain
            (Cache.Set acctPlain (Cache.fresh 5 1000) 1 2)).currmem
            + acctPlain.kItemMem
          ≤ (Cache.Set acctPlain (Cache.fresh 5 1000) 1 2).currmem
          ∧ (Cache.Pop acctPlain
              (Cache.Set acctPlain (Cache.fresh 5 1000) 1 2)).currmem
            < (Cache.Set acctPlain (Cache.fresh 5 1000) 1 2).currmem)
      ∧ ((Cache.Set acctPlain (Cache.fresh 5 1000) 1 2).buf = [] →
          (Cache.Set acctPlain (Cache.fresh 5 1000) 1 2).currmem = 0)) :=
  ⟨by decide,
    c10_maxmem_termination acctPlain
      (Cache.Set acctPlain (Cache.fresh 5 1000) 1 2)
      ⟨by decide, by decide, by decide, by decide, by decide, by decide,
        by decide⟩
      (by decide) 0⟩

end Lru
